import Mathlib

/-!
# Blog API: slug derivation and slug allocation

A shallow embedding of the blog-creation path of `backend/server.js`
(`app.post("/api/blogs")`) and of `backend/models/Blog.js` (`blogSchema`,
its pre-save hook and `generateSlug`).

JavaScript strings are modelled by Lean strings, read as lists of characters.
The three regular-expression features the code relies on (a global replace of
runs of a character class, a replace anchored at the start, a replace anchored
at the end) are given by small matchers that follow the way
`String.prototype.replace` scans its subject.
-/

namespace BlogApi

/-! ## Character classes of the regular expressions -/

/-- The class `\s` of an ECMAScript regular expression: the WhiteSpace and
LineTerminator code points. -/
def isWhiteSpace (c : Char) : Bool :=
  let n := c.toNat
  n == 0x09 || n == 0x0A || n == 0x0B || n == 0x0C || n == 0x0D || n == 0x20 ||
  n == 0xA0 || n == 0x1680 || (0x2000 ≤ n && n ≤ 0x200A) || n == 0x2028 ||
  n == 0x2029 || n == 0x202F || n == 0x205F || n == 0x3000 || n == 0xFEFF

/-- The class `\w` of an ECMAScript regular expression without the `i` and `u`
flags: `[A-Za-z0-9_]`. -/
def isWordChar (c : Char) : Bool :=
  let n := c.toNat
  (0x41 ≤ n && n ≤ 0x5A) || (0x61 ≤ n && n ≤ 0x7A) || (0x30 ≤ n && n ≤ 0x39) || n == 0x5F

/-- The hyphen test used by `\-`. -/
def isHyphen (c : Char) : Bool := c == '-'

/-- The negated class `[^\w\-]`. -/
def isNotWordOrHyphen (c : Char) : Bool := !(isWordChar c || isHyphen c)

/-! ## `toLowerCase` -/

/-- The lowercase mapping of one code point, as far as the slug can observe it.
`A`-`Z` go to `a`-`z`; the two other code points whose lowercase form contains
an ASCII character are KELVIN SIGN (U+212A, to `k`) and LATIN CAPITAL LETTER I
WITH DOT ABOVE (U+0130, to `i` followed by U+0307).  Every other code point is
left as it is: its lowercase form consists of code points outside ASCII that are
whitespace exactly when the original is, so the later steps of the chain treat
both alike. -/
def lowerChar (c : Char) : List Char :=
  let n := c.toNat
  if 0x41 ≤ n ∧ n ≤ 0x5A then [Char.ofNat (n + 32)]
  else if n = 0x212A then ['k']
  else if n = 0x130 then ['i', Char.ofNat 0x307]
  else [c]

/-- The method `String.prototype.toLowerCase` on the characters of a string. -/
def toLowerCase (s : List Char) : List Char := s.flatMap lowerChar

/-! ## Regular-expression replacement -/

/-- Scanner behind `s.replace(/C{m,}/g, rep)` for a character class `C`
(`C+` is `m = 1`, `CC+` is `m = 2`, with `1 ≤ m`).  At each position the greedy
match takes the whole run of `C` starting there; when the run has at least
`m` characters it is replaced by `rep` and scanning resumes after it (`skip`
counts the characters of the match still to be passed over), otherwise the
character is copied and scanning resumes at the next position. -/
def replaceAllRuns (cls : Char → Bool) (m : Nat) (rep : List Char) :
    Nat → List Char → List Char
  | _, [] => []
  | skip + 1, _ :: cs => replaceAllRuns cls m rep skip cs
  | 0, c :: cs =>
    let n := ((c :: cs).takeWhile cls).length
    if 1 ≤ n ∧ m ≤ n then rep ++ replaceAllRuns cls m rep (n - 1) cs
    else c :: replaceAllRuns cls m rep 0 cs

/-- Matcher for `s.replace(/^-+/, "")`: the pattern can only match at position 0,
where it takes the whole run of hyphens. -/
def replaceLeadingHyphens (s : List Char) : List Char :=
  let n := (s.takeWhile isHyphen).length
  if 1 ≤ n then s.drop n else s

/-- Matcher for the last `replace` of the chain, whose pattern is `-+$` and whose
replacement is empty: positions are tried from the left; at a
position the greedy `-+` takes the run of hyphens starting there and `$` then
requires the end of the subject.  The first position that matches is replaced
by the empty string and, without the `g` flag, the rest is copied. -/
def replaceTrailingHyphens : List Char → List Char
  | [] => []
  | c :: cs =>
    let n := ((c :: cs).takeWhile isHyphen).length
    if 1 ≤ n ∧ n = (c :: cs).length then [] else c :: replaceTrailingHyphens cs

/-! ## The slug chain -/

/-- The chain of `generateSlug` in `models/Blog.js`, on characters. -/
def generateSlugChars (title : List Char) : List Char :=
  replaceTrailingHyphens
    (replaceLeadingHyphens
      (replaceAllRuns isHyphen 2 ['-'] 0
        (replaceAllRuns isNotWordOrHyphen 1 [] 0
          (replaceAllRuns isWhiteSpace 1 ['-'] 0
            (toLowerCase title)))))

/-- The helper `generateSlug(title)` of `models/Blog.js`. -/
def generateSlug (title : String) : String := ⟨generateSlugChars title.data⟩

/-- The inline chain `let slug = title.toString().toLowerCase().replace(...)...` of the
`POST /api/blogs` handler in `server.js`. -/
def initialSlug (title : String) : String :=
  String.mk
    (replaceTrailingHyphens
      (replaceLeadingHyphens
        (replaceAllRuns isHyphen 2 ['-'] 0
          (replaceAllRuns isNotWordOrHyphen 1 [] 0
            (replaceAllRuns isWhiteSpace 1 ['-'] 0
              (toLowerCase title.data))))))

/-! ## The six steps of the specification -/

/-- Replace every maximal run of characters of the class `cls` that has at least `m`
characters by `rep`: the subject is cut into its maximal runs (a run is a
maximal block of consecutive `cls` characters, every other character stands
alone), and each run is replaced or kept. -/
def replaceMaximalRuns (cls : Char → Bool) (m : Nat) (rep : List Char) (s : List Char) :
    List Char :=
  (s.splitBy (fun a b => cls a && cls b)).flatMap
    (fun run => if run.all cls ∧ m ≤ run.length then rep else run)

/-- Step 1 of the specification: lowercase the entire input. -/
def specLowercase (s : List Char) : List Char := toLowerCase s

/-- Step 2: replace every maximal run of whitespace characters with a single hyphen. -/
def specHyphenateWhitespace (s : List Char) : List Char :=
  replaceMaximalRuns isWhiteSpace 1 ['-'] s

/-- Step 3: remove every character that is not an alphanumeric character, an
underscore or a hyphen. -/
def specKeepSlugChars (s : List Char) : List Char :=
  s.filter (fun c => c.isAlphanum || c == '_' || c == '-')

/-- Step 4: collapse every maximal run of two or more hyphens into a single hyphen. -/
def specCollapseHyphens (s : List Char) : List Char :=
  replaceMaximalRuns (fun c => c == '-') 2 ['-'] s

/-- Step 5: strip any leading hyphens. -/
def specStripLeading (s : List Char) : List Char := s.dropWhile (fun c => c == '-')

/-- Step 6: strip any trailing hyphens. -/
def specStripTrailing (s : List Char) : List Char := s.rdropWhile (fun c => c == '-')

/-- The Slug Deriver of the specification: the six steps in order. -/
def specDerive (title : String) : String :=
  String.mk
    (specStripTrailing (specStripLeading (specCollapseHyphens
      (specKeepSlugChars (specHyphenateWhitespace (specLowercase title.data))))))

/-! ## Documents and collections -/

/-- A document of the `Blog` collection, with the paths of `blogSchema`.
`createdAt` is a clock reading. -/
structure Blog where
  title : String
  slug : String
  description : String
  body : String
  category : String
  imageUrl : String
  createdAt : Nat
deriving DecidableEq, Repr

/-- Modelled from the spec: the schema file `models/Category.js` is not among the
sources.  A document of the `Category` collection carries the two fields that
`POST /api/categories` stores; categories are identified by their `name`,
which is the only field the blog-creation handler looks at. -/
structure Category where
  name : String
  description : String
deriving DecidableEq, Repr

/-- The two collections the blog-creation handler touches. -/
structure Db where
  blogs : List Blog
  categories : List Category
deriving DecidableEq, Repr

/-- The slugs stored in the `Blog` collection, in insertion order. -/
def slugs (blogs : List Blog) : List String := blogs.map (fun b => b.slug)

/-- The query `Blog.findOne({slug: finalSlug})`. -/
def findOneBySlug (blogs : List Blog) (finalSlug : String) : Option Blog :=
  blogs.find? (fun b => b.slug == finalSlug)

/-- The query `Category.findOne({name: category})`. -/
def findOneCategory (categories : List Category) (category : String) : Option Category :=
  categories.find? (fun c => c.name == category)

/-! ## The probe loop -/

/-- The loop `while (slugExists)` of the handler, started with `finalSlug = slug`
and `suffix = 1`.  Each unit of `fuel` pays for one `Blog.findOne` query; `none`
means the fuel ran out before a free candidate was found.  `suffix` is a
JavaScript number; it stays an exact integer as long as it is below `2 ^ 53`,
and the loop never raises it beyond the number of stored posts plus two. -/
def probeLoop (blogs : List Blog) (slug : String) : Nat → String → Nat → Option String
  | 0, _, _ => none
  | fuel + 1, finalSlug, suffix =>
    match findOneBySlug blogs finalSlug with
    | none => some finalSlug
    | some _ => probeLoop blogs slug fuel (slug ++ "-" ++ toString suffix) (suffix + 1)

/-- The Slug Allocator: the probe loop from its initial state. -/
def allocate (fuel : Nat) (blogs : List Blog) (slug : String) : Option String :=
  probeLoop blogs slug fuel slug 1

/-- The `k`-th variant of a base slug: the base itself for `k = 0`, and the base
followed by a hyphen and `k` in decimal for `1 ≤ k`. -/
def variant (slug : String) : Nat → String
  | 0 => slug
  | k + 1 => slug ++ "-" ++ toString (k + 1)

/-! ## Saving a document -/

/-- Why `newBlog.save()` rejects. -/
inductive SaveError
  | validation
  | duplicateKey
deriving DecidableEq, Repr

/-- The validators of `blogSchema`: each of the six string paths is
`required: true`, which a string passes exactly when it is not empty. -/
def validateBlog (doc : Blog) : Bool :=
  doc.title != "" && doc.slug != "" && doc.description != "" && doc.body != "" &&
  doc.category != "" && doc.imageUrl != ""

/-- The hook `blogSchema.pre("save", ...)`. -/
def preSave (doc : Blog) : Blog :=
  if doc.slug = "" then { doc with slug := generateSlug doc.title } else doc

/-- The call `newBlog.save()`: validation runs first, then the pre-save hook,
then the insert, which the unique index on `slug` rejects when the slug is
already stored. -/
def save (db : Db) (doc : Blog) : Except SaveError (Blog × Db) :=
  if validateBlog doc then
    let doc := preSave doc
    if (findOneBySlug db.blogs doc.slug).isSome then Except.error SaveError.duplicateKey
    else Except.ok (doc, { db with blogs := db.blogs ++ [doc] })
  else Except.error SaveError.validation

/-! ## The handler of `POST /api/blogs` -/

/-- The file of a multipart request (`req.file`), together with what the
image host answers when the file is uploaded: `secureUrl = none` stands for an
upload error. -/
structure UploadedFile where
  originalname : String
  secureUrl : Option String
deriving DecidableEq, Repr

/-- A creation request: the four body fields (an absent field and an empty one
are both falsy in the guard of the handler and are both the empty string here),
the uploaded file if any, and the clock reading used for `createdAt`. -/
structure Request where
  title : String
  description : String
  body : String
  category : String
  file : Option UploadedFile
  now : Nat
deriving DecidableEq, Repr

/-- What the handler answers. -/
inductive Response
  | created (blog : Blog)
  | badRequest (message : String)
  | serverError (message : String)
deriving DecidableEq, Repr

/-- The helper `uploadImage(file)`: resolves with `result.secure_url` or rejects. -/
def uploadImage (file : UploadedFile) : Option String := file.secureUrl

/-- The document `new Blog(...)` built by the handler. -/
def newBlog (req : Request) (finalSlug imageUrl : String) : Blog :=
  { title := req.title, slug := finalSlug, description := req.description,
    body := req.body, category := req.category, imageUrl := imageUrl,
    createdAt := req.now }

/-- The handler `app.post("/api/blogs", ...)` run to completion without any other
request in between.  The result is the response and the database afterwards;
`none` means the probe loop ran out of fuel. -/
def createBlog (fuel : Nat) (db : Db) (req : Request) : Option (Response × Db) :=
  if req.title = "" ∨ req.description = "" ∨ req.body = "" ∨ req.category = "" then
    some (Response.badRequest "All fields are required", db)
  else
    match req.file with
    | none => some (Response.badRequest "Image is required", db)
    | some file =>
      match findOneCategory db.categories req.category with
      | none => some (Response.badRequest "Category does not exist", db)
      | some _ =>
        match uploadImage file with
        | none => some (Response.serverError "Internal server error", db)
        | some imageUrl =>
          let slug := initialSlug req.title
          match allocate fuel db.blogs slug with
          | none => none
          | some finalSlug =>
            match save db (newBlog req finalSlug imageUrl) with
            | Except.error _ => some (Response.serverError "Internal server error", db)
            | Except.ok (doc, db') => some (Response.created doc, db')

/-- A sequence of creation requests handled one after another. -/
def createAll (fuel : Nat) : Db → List Request → Option (List Response × Db)
  | db, [] => some ([], db)
  | db, req :: reqs =>
    match createBlog fuel db req with
    | none => none
    | some (resp, db') =>
      match createAll fuel db' reqs with
      | none => none
      | some (resps, db'') => some (resp :: resps, db'')

/-- The slug committed by a response, if it created a post. -/
def committedSlug : Response → Option String
  | Response.created blog => some blog.slug
  | _ => none

/-! ## Interleaved requests

The handler is an `async` function: it gives up control at each `await`, and the
event loop may run another request in between.  A request in flight is a `Task`
standing at one of its `await`s; one step runs it up to the next `await`. -/

/-- Where a request in flight stands. -/
inductive Task
  /-- Not started: the guards and `await Category.findOne` come next. -/
  | start (req : Request)
  /-- At `await uploadImage(req.file)`. -/
  | uploading (req : Request) (file : UploadedFile)
  /-- At `await Blog.findOne` inside the loop, with the loop variables. -/
  | probing (req : Request) (imageUrl slug finalSlug : String) (suffix : Nat)
  /-- At `await newBlog.save()`. -/
  | saving (doc : Blog)
  /-- Answered. -/
  | done (resp : Response)
deriving DecidableEq, Repr

/-- One step of a request in flight against the shared database. -/
def stepTask (db : Db) : Task → Task × Db
  | Task.start req =>
    if req.title = "" ∨ req.description = "" ∨ req.body = "" ∨ req.category = "" then
      (Task.done (Response.badRequest "All fields are required"), db)
    else
      match req.file with
      | none => (Task.done (Response.badRequest "Image is required"), db)
      | some file =>
        match findOneCategory db.categories req.category with
        | none => (Task.done (Response.badRequest "Category does not exist"), db)
        | some _ => (Task.uploading req file, db)
  | Task.uploading req file =>
    match uploadImage file with
    | none => (Task.done (Response.serverError "Internal server error"), db)
    | some imageUrl =>
      let slug := initialSlug req.title
      (Task.probing req imageUrl slug slug 1, db)
  | Task.probing req imageUrl slug finalSlug suffix =>
    match findOneBySlug db.blogs finalSlug with
    | none => (Task.saving (newBlog req finalSlug imageUrl), db)
    | some _ => (Task.probing req imageUrl slug (slug ++ "-" ++ toString suffix) (suffix + 1), db)
  | Task.saving doc =>
    match save db doc with
    | Except.error _ => (Task.done (Response.serverError "Internal server error"), db)
    | Except.ok (doc', db') => (Task.done (Response.created doc'), db')
  | Task.done resp => (Task.done resp, db)

/-- The shared database and the requests in flight. -/
structure System where
  db : Db
  tasks : List Task
deriving DecidableEq, Repr

/-- The event loop resumes the `i`-th request for one step (nothing happens when
there is no such request). -/
def stepAt (sys : System) (i : Nat) : System :=
  match sys.tasks.get? i with
  | none => sys
  | some task =>
    let out := stepTask sys.db task
    { db := out.2, tasks := sys.tasks.set i out.1 }

/-- The system after the event loop has resumed the requests in the order given
by the schedule. -/
def runSchedule (sys : System) (schedule : List Nat) : System :=
  schedule.foldl stepAt sys

/-- All requests received, none started. -/
def launch (db : Db) (reqs : List Request) : System :=
  { db := db, tasks := reqs.map Task.start }

/-- The responses given so far. -/
def responses (sys : System) : List Response :=
  sys.tasks.filterMap (fun t => match t with | Task.done resp => some resp | _ => none)

/-- Whether every request has been answered. -/
def allDone (sys : System) : Bool :=
  sys.tasks.all (fun t => match t with | Task.done _ => true | _ => false)

/-- A well-formed request with the given title, used in examples. -/
def sampleRequest (title : String) : Request :=
  { title := title, description := "d", body := "b", category := "news",
    file := some { originalname := "a.png", secureUrl := some "https://img/a.png" },
    now := 0 }

/-- A database with one category and no posts, used in examples. -/
def sampleDb : Db := { blogs := [], categories := [{ name := "news", description := "" }] }

/-- A stored post with the given slug, used in examples. -/
def samplePost (slug : String) : Blog := newBlog (sampleRequest "t") slug "https://img/a.png"

/-! ## Definitions used in the statements and in the proofs -/

/-- The value of a decimal digit character. -/
def digitValue (c : Char) : Nat := c.toNat - 48

/-- The number a list of decimal digit characters denotes. -/
def decodeDigits (cs : List Char) : Nat := cs.foldl (fun a c => 10 * a + digitValue c) 0

/-- Replace every run of `cls` characters by one hyphen, in one pass; `prev` tells
whether the character before the current position belongs to a run already
replaced. -/
def squeezeRuns (cls : Char → Bool) : Bool → List Char → List Char
  | _, [] => []
  | prev, c :: cs =>
    if cls c then (if prev then squeezeRuns cls true cs else '-' :: squeezeRuns cls true cs)
    else c :: squeezeRuns cls false cs

/-- `ExtraWhitespace t t'`: the title `t'` is `t` with whitespace characters added,
one at a time, at the start, at the end, or next to a whitespace character
that is already there (which lengthens an existing run). -/
inductive ExtraWhitespace : List Char → List Char → Prop
  | same (t : List Char) : ExtraWhitespace t t
  | atStart (t t' : List Char) (w : Char) (hw : isWhiteSpace w = true)
      (h : ExtraWhitespace t t') : ExtraWhitespace t (w :: t')
  | atEnd (t t' : List Char) (w : Char) (hw : isWhiteSpace w = true)
      (h : ExtraWhitespace t t') : ExtraWhitespace t (t' ++ [w])
  | afterWhitespace (t a b : List Char) (c w : Char) (hc : isWhiteSpace c = true)
      (hw : isWhiteSpace w = true) (h : ExtraWhitespace t (a ++ c :: b)) :
      ExtraWhitespace t (a ++ c :: w :: b)
  | beforeWhitespace (t a b : List Char) (c w : Char) (hc : isWhiteSpace c = true)
      (hw : isWhiteSpace w = true) (h : ExtraWhitespace t (a ++ c :: b)) :
      ExtraWhitespace t (a ++ w :: c :: b)

/-- What the chain does after the whitespace step. -/
def finishSlug (u : List Char) : List Char :=
  ((squeezeRuns isHyphen false (u.filter (fun c => !isNotWordOrHyphen c))).dropWhile
    isHyphen).rdropWhile isHyphen

/-- Whether a request passes the guards of the handler against `db` and its image
upload answers a non-empty URL. -/
def accepted (db : Db) (req : Request) : Bool :=
  req.title != "" && req.description != "" && req.body != "" && req.category != "" &&
  (findOneCategory db.categories req.category).isSome &&
  (match req.file with
   | none => false
   | some file =>
     match uploadImage file with
     | none => false
     | some imageUrl => imageUrl != "")

/-- The slugs committed by the requests selected by `sel`, in order, given the
requests and the responses they got. -/
def committedBy (sel : Request → Bool) : List Request → List Response → List String
  | req :: reqs, resp :: resps =>
    (if sel req then (committedSlug resp).toList else []) ++ committedBy sel reqs resps
  | _, _ => []

/-- The posts created by a list of responses, in order. -/
def createdDocs : List Response → List Blog
  | [] => []
  | Response.created doc :: resps => doc :: createdDocs resps
  | _ :: resps => createdDocs resps

/-- Whether the title of a request derives the base slug `b`. -/
def hasBase (b : String) (req : Request) : Bool := initialSlug req.title == b

/-- The slug a request in flight has committed: the slug of the post it created,
once it is answered. -/
def taskSlug : Task → Option String
  | Task.done resp => committedSlug resp
  | _ => none

/-- What is known of a request in flight whose title derives the base `x`, when
the store holds the first `m` variants of `x`: the candidate it is about to
query or to save is a variant of index at most `m`. -/
def TaskOk (x : String) (m : Nat) : Task → Prop
  | Task.start req => initialSlug req.title = x
  | Task.uploading req _ => initialSlug req.title = x
  | Task.probing _ _ slug finalSlug suffix =>
    slug = x ∧ ∃ j, finalSlug = variant x j ∧ suffix = j + 1 ∧ j ≤ m
  | Task.saving doc => ∃ j, doc.slug = variant x j ∧ j ≤ m
  | Task.done _ => True

/-- The invariant of `n` interleaved creations of base `x` on a store that had no
posts: the stored slugs are the first variants of `x` in order, every request
in flight is at a variant not beyond them, and the stored slugs are the slugs
of the posts reported as created. -/
structure Inv (x : String) (n : Nat) (sys : System) : Prop where
  gapFree : slugs sys.db.blogs = (List.range sys.db.blogs.length).map (variant x)
  tasksOk : ∀ t ∈ sys.tasks, TaskOk x sys.db.blogs.length t
  committed : (slugs sys.db.blogs).Perm (sys.tasks.filterMap taskSlug)
  count : sys.tasks.length = n

/-! ## Sample evaluations -/

theorem derive_examples :
    specDerive "Hello  World!" = "hello-world" ∧
    specDerive "  --Foo_Bar--  " = "foo_bar" ∧
    initialSlug "My   Post" = "my-post" ∧
    initialSlug "a - - b" = "a-b" ∧
    initialSlug "\u212A2 \u0130stanbul Caf\u00e9" = "k2-istanbul-caf" := by
  refine ⟨by decide, by decide, by decide, by decide, by decide⟩

/-! ## Decimal numerals are injective -/

theorem digitValue_digitChar (d : Nat) (h : d < 10) : digitValue (Nat.digitChar d) = d := by
  interval_cases d <;> rfl

theorem decodeDigits_concat (xs : List Char) (c : Char) :
    decodeDigits (xs ++ [c]) = 10 * decodeDigits xs + digitValue c := by
  simp [decodeDigits, List.foldl_append]

theorem toDigitsCore_decode (fuel : Nat) : ∀ (n : Nat) (ds : List Char), n < fuel →
    ∃ xs, Nat.toDigitsCore 10 fuel n ds = xs ++ ds ∧ decodeDigits xs = n := by
  induction fuel with
  | zero => intro n ds h; omega
  | succ fuel ih =>
    intro n ds h
    unfold Nat.toDigitsCore
    by_cases h0 : n / 10 = 0
    · refine ⟨[Nat.digitChar (n % 10)], by simp [h0], ?_⟩
      have hlt : n % 10 < 10 := Nat.mod_lt _ (by decide)
      have := digitValue_digitChar (n % 10) hlt
      simp only [decodeDigits, List.foldl_cons, List.foldl_nil, this]
      omega
    · have hlt : n / 10 < fuel := by omega
      obtain ⟨xs, hxs, hdec⟩ := ih (n / 10) (Nat.digitChar (n % 10) :: ds) hlt
      refine ⟨xs ++ [Nat.digitChar (n % 10)], by simp [h0, hxs], ?_⟩
      rw [decodeDigits_concat, hdec, digitValue_digitChar _ (Nat.mod_lt _ (by decide))]
      omega

theorem decode_toDigits (n : Nat) : decodeDigits (Nat.toDigits 10 n) = n := by
  obtain ⟨xs, hxs, hdec⟩ := toDigitsCore_decode (n + 1) n [] (Nat.lt_succ_self n)
  simp only [Nat.toDigits, hxs, List.append_nil, hdec]

theorem toString_nat_injective (j k : Nat) (h : toString j = toString k) : j = k := by
  have h1 : (Nat.toDigits 10 j) = (Nat.toDigits 10 k) := by
    have := congrArg String.data h
    simpa [toString, Nat.repr, List.asString] using this
  have := congrArg decodeDigits h1
  simpa [decode_toDigits] using this

/-! ## Variants of a base slug -/

theorem variant_succ (b : String) (k : Nat) : variant b (k + 1) = b ++ "-" ++ toString (k + 1) :=
  rfl

theorem variant_injective (b : String) (j k : Nat) (h : variant b j = variant b k) : j = k := by
  cases j with
  | zero =>
    cases k with
    | zero => rfl
    | succ k =>
      have := congrArg String.length h
      simp only [variant, String.length_append] at this
      have h1 : "-".length = 1 := rfl
      omega
  | succ j =>
    cases k with
    | zero =>
      have := congrArg String.length h
      simp only [variant, String.length_append] at this
      have h1 : "-".length = 1 := rfl
      omega
    | succ k =>
      have h1 := congrArg String.data h
      simp only [variant, String.data_append, List.append_assoc, List.append_cancel_left_eq] at h1
      have h2 : toString (j + 1) = toString (k + 1) := String.ext h1
      have := toString_nat_injective _ _ h2
      omega

/-! ## The probe loop finds the first free variant -/

theorem findOneBySlug_eq_none (blogs : List Blog) (s : String) :
    findOneBySlug blogs s = none ↔ s ∉ slugs blogs := by
  simp [findOneBySlug, slugs, List.find?_eq_none]

theorem findOneBySlug_isSome (blogs : List Blog) (s : String) :
    (findOneBySlug blogs s).isSome = true ↔ s ∈ slugs blogs := by
  rw [← not_iff_not, ← findOneBySlug_eq_none]
  cases findOneBySlug blogs s <;> simp

/-- The loop, entered at the `k`-th variant, walks through `d` taken variants and
stops at the first free one. -/
theorem probeLoop_walk (blogs : List Blog) (b : String) (d : Nat) :
    ∀ (k fuel : Nat), d < fuel → variant b (k + d) ∉ slugs blogs →
      (∀ j, k ≤ j → j < k + d → variant b j ∈ slugs blogs) →
      probeLoop blogs b fuel (variant b k) (k + 1) = some (variant b (k + d)) := by
  induction d with
  | zero =>
    intro k fuel hf hfree _
    obtain ⟨fuel, rfl⟩ : ∃ f, fuel = f + 1 := ⟨fuel - 1, by omega⟩
    have := (findOneBySlug_eq_none blogs (variant b k)).2 (by simpa using hfree)
    simp [probeLoop, this]
  | succ d ih =>
    intro k fuel hf hfree htaken
    obtain ⟨fuel, rfl⟩ : ∃ f, fuel = f + 1 := ⟨fuel - 1, by omega⟩
    have hk : variant b k ∈ slugs blogs := htaken k (le_refl _) (by omega)
    have hsome : ∃ p, findOneBySlug blogs (variant b k) = some p := by
      have := (findOneBySlug_isSome blogs (variant b k)).2 hk
      exact Option.isSome_iff_exists.1 this
    obtain ⟨p, hp⟩ := hsome
    have hstep := ih (k + 1) fuel (by omega) (by rwa [show k + 1 + d = k + (d + 1) by omega])
      (fun j h1 h2 => htaken j (by omega) (by omega))
    simp only [probeLoop, hp]
    rw [← variant_succ, hstep, show k + 1 + d = k + (d + 1) by omega]

/-- A store of `n` posts cannot hold all of the first `n + 1` variants. -/
theorem exists_free_variant (blogs : List Blog) (b : String) :
    ∃ k, k ≤ blogs.length ∧ variant b k ∉ slugs blogs := by
  by_contra hcon
  push_neg at hcon
  have hnd : ((List.range (blogs.length + 1)).map (variant b)).Nodup :=
    (List.nodup_range _).map (fun j k h => variant_injective b j k h)
  have hsub : (List.range (blogs.length + 1)).map (variant b) ⊆ slugs blogs := by
    intro s hs
    obtain ⟨k, hk, rfl⟩ := List.mem_map.1 hs
    exact hcon k (by have := List.mem_range.1 hk; omega)
  have hlen := (hnd.subperm hsub).length_le
  simp [slugs] at hlen

/-- The index of the first free variant, with its defining properties. -/
theorem first_free_variant (blogs : List Blog) (b : String) :
    ∃ k, k ≤ blogs.length ∧ variant b k ∉ slugs blogs ∧ ∀ j, j < k → variant b j ∈ slugs blogs := by
  classical
  have hex : ∃ k, variant b k ∉ slugs blogs := by
    obtain ⟨k, _, hk⟩ := exists_free_variant blogs b
    exact ⟨k, hk⟩
  refine ⟨Nat.find hex, ?_, Nat.find_spec hex, fun j hj => ?_⟩
  · obtain ⟨k, hk, hfree⟩ := exists_free_variant blogs b
    exact le_trans (Nat.find_min' hex hfree) hk
  · exact not_not.1 (Nat.find_min hex hj)

/-- With one query per stored post and one more, the allocator returns the first
free variant. -/
theorem allocate_first_free (fuel : Nat) (blogs : List Blog) (b : String)
    (hfuel : blogs.length < fuel) :
    ∃ k, k ≤ blogs.length ∧ allocate fuel blogs b = some (variant b k) ∧
      variant b k ∉ slugs blogs ∧ ∀ j, j < k → variant b j ∈ slugs blogs := by
  obtain ⟨k, hk, hfree, htaken⟩ := first_free_variant blogs b
  refine ⟨k, hk, ?_, hfree, htaken⟩
  have := probeLoop_walk blogs b k 0 fuel (by omega) (by simpa using hfree)
    (fun j _ h2 => htaken j (by omega))
  simpa [allocate, variant] using this

/-! ## The matchers agree with the steps of the specification -/

theorem drop_length_takeWhile (p : Char → Bool) (l : List Char) :
    l.drop (l.takeWhile p).length = l.dropWhile p := by
  induction l with
  | nil => rfl
  | cons c cs ih =>
    by_cases h : p c
    · simp [List.takeWhile_cons, List.dropWhile_cons, h, ih]
    · simp [List.takeWhile_cons, List.dropWhile_cons, h]

theorem replaceAllRuns_skip (cls : Char → Bool) (m : Nat) (rep : List Char) :
    ∀ (l : List Char) (k : Nat),
      replaceAllRuns cls m rep k l = replaceAllRuns cls m rep 0 (l.drop k) := by
  intro l
  induction l with
  | nil => intro k; cases k <;> simp [replaceAllRuns]
  | cons c cs ih =>
    intro k
    cases k with
    | zero => rfl
    | succ k => rw [replaceAllRuns, ih k, List.drop_succ_cons]

theorem replaceAllRuns_other (cls : Char → Bool) (m : Nat) (rep : List Char) (c : Char)
    (cs : List Char) (hc : cls c = false) :
    replaceAllRuns cls m rep 0 (c :: cs) = c :: replaceAllRuns cls m rep 0 cs := by
  simp [replaceAllRuns, List.takeWhile_cons, hc]

theorem replaceAllRuns_run (cls : Char → Bool) (m : Nat) (rep : List Char) (c : Char)
    (cs : List Char) (hc : cls c = true) (hm : m ≤ 1 + (cs.takeWhile cls).length) :
    replaceAllRuns cls m rep 0 (c :: cs) = rep ++ replaceAllRuns cls m rep 0 (cs.dropWhile cls) := by
  have hlen : ((c :: cs).takeWhile cls).length = (cs.takeWhile cls).length + 1 := by
    simp [List.takeWhile_cons, hc]
  rw [replaceAllRuns]
  simp only [hlen]
  rw [if_pos ⟨by omega, by omega⟩, Nat.add_sub_cancel, replaceAllRuns_skip,
    drop_length_takeWhile]

theorem replaceAllRuns_short (cls : Char → Bool) (m : Nat) (rep : List Char) :
    ∀ l : List Char, (l.takeWhile cls).length < m →
      replaceAllRuns cls m rep 0 l
        = l.takeWhile cls ++ replaceAllRuns cls m rep 0 (l.dropWhile cls) := by
  intro l
  induction l with
  | nil => intro _; simp [replaceAllRuns]
  | cons c cs ih =>
    intro h
    by_cases hc : cls c = true
    · have hlen : ((c :: cs).takeWhile cls).length = (cs.takeWhile cls).length + 1 := by
        simp [List.takeWhile_cons, hc]
      have hcs := ih (by omega)
      rw [replaceAllRuns]
      simp only [hlen]
      rw [if_neg (by omega), hcs]
      simp [List.takeWhile_cons, List.dropWhile_cons, hc]
    · have hc' : cls c = false := by simpa using hc
      simp [List.takeWhile_cons, List.dropWhile_cons, hc']

theorem splitBy_loop_acc (r : Char → Char → Bool) :
    ∀ (l : List Char) (a : Char) (g : List Char) (gs : List (List Char)),
      List.splitBy.loop r l a g gs = gs.reverse ++ List.splitBy.loop r l a g [] := by
  intro l
  induction l with
  | nil => intro a g gs; simp [List.splitBy.loop]
  | cons b l ih =>
    intro a g gs
    simp only [List.splitBy.loop]
    cases r a b
    · simp only
      rw [ih b [] ((a :: g).reverse :: gs), ih b [] [(a :: g).reverse]]
      simp
    · simp only
      exact ih b (a :: g) gs

theorem splitBy_loop_runs (cls : Char → Bool) :
    ∀ (l : List Char) (a : Char) (g : List Char),
      List.splitBy.loop (fun x y => cls x && cls y) l a g []
        = (g.reverse ++ a :: (if cls a then l.takeWhile cls else []))
          :: List.splitBy (fun x y => cls x && cls y) (if cls a then l.dropWhile cls else l) := by
  intro l
  induction l with
  | nil => intro a g; simp [List.splitBy.loop]
  | cons b l ih =>
    intro a g
    simp only [List.splitBy.loop]
    cases ha : cls a
    · simp only [Bool.false_and]
      rw [splitBy_loop_acc]
      simp [List.splitBy]
    · cases hb : cls b
      · simp only [Bool.and_false]
        rw [splitBy_loop_acc]
        simp [List.splitBy, List.takeWhile_cons, List.dropWhile_cons, hb]
      · simp only [Bool.and_self]
        rw [ih b (a :: g)]
        simp [List.takeWhile_cons, List.dropWhile_cons, hb]

theorem splitBy_runs_cons (cls : Char → Bool) (c : Char) (cs : List Char) :
    List.splitBy (fun x y => cls x && cls y) (c :: cs)
      = (c :: (if cls c then cs.takeWhile cls else []))
        :: List.splitBy (fun x y => cls x && cls y) (if cls c then cs.dropWhile cls else cs) := by
  have := splitBy_loop_runs cls cs c []
  simpa [List.splitBy] using this

theorem replaceMaximalRuns_other (cls : Char → Bool) (m : Nat) (rep : List Char) (c : Char)
    (cs : List Char) (hc : cls c = false) :
    replaceMaximalRuns cls m rep (c :: cs) = c :: replaceMaximalRuns cls m rep cs := by
  simp [replaceMaximalRuns, splitBy_runs_cons, hc]

theorem replaceMaximalRuns_run (cls : Char → Bool) (m : Nat) (rep : List Char) (c : Char)
    (cs : List Char) (hc : cls c = true) :
    replaceMaximalRuns cls m rep (c :: cs)
      = (if m ≤ 1 + (cs.takeWhile cls).length then rep else c :: cs.takeWhile cls)
        ++ replaceMaximalRuns cls m rep (cs.dropWhile cls) := by
  have hall : ∀ x ∈ cs.takeWhile cls, cls x = true := fun x hx => List.mem_takeWhile_imp hx
  simp only [replaceMaximalRuns, splitBy_runs_cons, hc, if_true, List.flatMap_cons,
    List.all_cons, Bool.true_and, List.length_cons]
  have h2 : (cs.takeWhile cls).all cls = true := List.all_takeWhile
  simp only [h2, true_and]
  congr 1
  by_cases h : m ≤ 1 + (cs.takeWhile cls).length
  · rw [if_pos h, if_pos (by omega)]
  · rw [if_neg h, if_neg (by omega)]

/-- The scanner of a global replace of `cls` runs computes the replacement of the
maximal runs. -/
theorem replaceAllRuns_eq_replaceMaximalRuns (cls : Char → Bool) (m : Nat) (rep : List Char) :
    ∀ (n : Nat) (l : List Char), l.length ≤ n →
      replaceAllRuns cls m rep 0 l = replaceMaximalRuns cls m rep l := by
  intro n
  induction n with
  | zero =>
    intro l hl
    have : l = [] := List.eq_nil_of_length_eq_zero (by omega)
    subst this
    rfl
  | succ n ih =>
    intro l hl
    cases l with
    | nil => rfl
    | cons c cs =>
      have hlen : cs.length ≤ n := by simpa using hl
      cases hc : cls c
      · rw [replaceAllRuns_other _ _ _ _ _ hc, replaceMaximalRuns_other _ _ _ _ _ hc, ih cs hlen]
      · have hdrop : (cs.dropWhile cls).length ≤ n :=
          le_trans (List.dropWhile_sublist cls).length_le hlen
        rw [replaceMaximalRuns_run _ _ _ _ _ hc]
        by_cases h : m ≤ 1 + (cs.takeWhile cls).length
        · rw [if_pos h, replaceAllRuns_run _ _ _ _ _ hc h, ih _ hdrop]
        · have hshort : ((c :: cs).takeWhile cls).length < m := by
            simp [List.takeWhile_cons, hc]; omega
          rw [if_neg h, replaceAllRuns_short _ _ _ _ hshort, ih]
          · simp [List.takeWhile_cons, List.dropWhile_cons, hc]
          · simpa [List.dropWhile_cons, hc] using hdrop

theorem isWordChar_or_hyphen (c : Char) :
    (isWordChar c || isHyphen c) = (c.isAlphanum || c == '_' || c == '-') := by
  have h5f : (c.toNat == 0x5F) = (c == '_') := by
    rw [Bool.eq_iff_iff]
    simp only [beq_iff_eq]
    constructor
    · intro h
      apply Char.ext
      apply UInt32.ext
      exact h
    · rintro rfl; rfl
  simp only [isWordChar, isHyphen, Char.isAlphanum, Char.isAlpha, Char.isUpper, Char.isLower,
    Char.isDigit, h5f]
  have e1 : ∀ k : Nat, k < 4294967296 → (decide (c.val ≥ UInt32.ofNat k)) = decide (k ≤ c.toNat) := by
    intro k hk
    apply decide_eq_decide.2
    show (UInt32.ofNat k).toNat ≤ c.val.toNat ↔ _
    simp [UInt32.ofNat, Char.toNat, Nat.mod_eq_of_lt hk, Fin.ofNat]
  have e2 : ∀ k : Nat, k < 4294967296 → (decide (c.val ≤ UInt32.ofNat k)) = decide (c.toNat ≤ k) := by
    intro k hk
    apply decide_eq_decide.2
    show c.val.toNat ≤ (UInt32.ofNat k).toNat ↔ _
    simp [UInt32.ofNat, Char.toNat, Nat.mod_eq_of_lt hk, Fin.ofNat]
  have a1 : decide (c.val ≥ 65) = decide (65 ≤ c.toNat) := e1 65 (by decide)
  have a2 : decide (c.val ≤ 90) = decide (c.toNat ≤ 90) := e2 90 (by decide)
  have a3 : decide (c.val ≥ 97) = decide (97 ≤ c.toNat) := e1 97 (by decide)
  have a4 : decide (c.val ≤ 122) = decide (c.toNat ≤ 122) := e2 122 (by decide)
  have a5 : decide (c.val ≥ 48) = decide (48 ≤ c.toNat) := e1 48 (by decide)
  have a6 : decide (c.val ≤ 57) = decide (c.toNat ≤ 57) := e2 57 (by decide)
  rw [a1, a2, a3, a4, a5, a6]

theorem filter_dropWhile_removed (cls : Char → Bool) (l : List Char) :
    (l.dropWhile cls).filter (fun c => !cls c) = l.filter (fun c => !cls c) := by
  induction l with
  | nil => rfl
  | cons c cs ih =>
    cases hc : cls c
    · simp [List.dropWhile_cons, hc]
    · simp [List.dropWhile_cons, List.filter_cons, hc, ih]

/-- A global replace of the runs of `cls` by the empty string removes exactly the
characters of `cls`. -/
theorem replaceAllRuns_empty_eq_filter (cls : Char → Bool) :
    ∀ (n : Nat) (l : List Char), l.length ≤ n →
      replaceAllRuns cls 1 [] 0 l = l.filter (fun c => !cls c) := by
  intro n
  induction n with
  | zero =>
    intro l hl
    have : l = [] := List.eq_nil_of_length_eq_zero (by omega)
    subst this
    rfl
  | succ n ih =>
    intro l hl
    cases l with
    | nil => rfl
    | cons c cs =>
      have hlen : cs.length ≤ n := by simpa using hl
      cases hc : cls c
      · rw [replaceAllRuns_other _ _ _ _ _ hc, ih cs hlen]
        simp [List.filter_cons, hc]
      · have hdrop : (cs.dropWhile cls).length ≤ n :=
          le_trans (List.dropWhile_sublist cls).length_le hlen
        rw [replaceAllRuns_run _ _ _ _ _ hc (by omega), ih _ hdrop, filter_dropWhile_removed]
        simp [List.filter_cons, hc]

theorem replaceLeadingHyphens_eq (s : List Char) :
    replaceLeadingHyphens s = s.dropWhile isHyphen := by
  unfold replaceLeadingHyphens
  by_cases h : 1 ≤ (s.takeWhile isHyphen).length
  · simp only [h, if_true, drop_length_takeWhile]
  · have h0 : s.takeWhile isHyphen = [] := List.eq_nil_of_length_eq_zero (by omega)
    have := List.takeWhile_append_dropWhile isHyphen s
    rw [h0] at this
    simp only [h, if_false]
    exact this.symm

theorem length_takeWhile_eq_length (p : Char → Bool) (l : List Char) :
    (l.takeWhile p).length = l.length ↔ ∀ x ∈ l, p x = true := by
  constructor
  · intro h
    have hpre := List.takeWhile_prefix (l := l) p
    have := hpre.eq_of_length h
    exact List.takeWhile_eq_self_iff.1 this
  · intro h
    rw [List.takeWhile_eq_self_iff.2 h]

theorem rdropWhile_cons_of_not_all (p : Char → Bool) (c : Char) :
    ∀ cs : List Char, ¬ (∀ x ∈ c :: cs, p x = true) →
      (c :: cs).rdropWhile p = c :: cs.rdropWhile p := by
  intro cs
  induction cs using List.reverseRecOn with
  | nil =>
    intro h
    have hc : ¬ p c = true := by simpa using h
    simp [List.rdropWhile_singleton, hc]
  | append_singleton xs x ih =>
    intro h
    by_cases hx : p x = true
    · have h1 : ¬ (∀ y ∈ c :: xs, p y = true) := by
        intro hall
        apply h
        intro y hy
        simp only [List.mem_cons, List.mem_append, List.mem_singleton, List.mem_nil_iff,
          or_false] at hy
        rcases hy with rfl | hy | rfl
        · exact hall _ (List.mem_cons_self _ _)
        · exact hall _ (List.mem_cons_of_mem _ hy)
        · exact hx
      rw [← List.cons_append, List.rdropWhile_concat_pos _ _ _ hx,
        List.rdropWhile_concat_pos _ _ _ hx, ih h1]
    · rw [← List.cons_append, List.rdropWhile_concat_neg _ _ _ hx,
        List.rdropWhile_concat_neg _ _ _ hx, List.cons_append]

theorem replaceTrailingHyphens_eq (s : List Char) :
    replaceTrailingHyphens s = s.rdropWhile isHyphen := by
  induction s with
  | nil => rfl
  | cons c cs ih =>
    rw [replaceTrailingHyphens]
    by_cases hall : ∀ x ∈ c :: cs, isHyphen x = true
    · have hlen := (length_takeWhile_eq_length isHyphen (c :: cs)).2 hall
      have hnil : (c :: cs).rdropWhile isHyphen = [] := List.rdropWhile_eq_nil_iff.2 hall
      simp only [hlen, hnil]
      simp
    · have hlen : ¬ ((c :: cs).takeWhile isHyphen).length = (c :: cs).length :=
        fun h => hall ((length_takeWhile_eq_length isHyphen (c :: cs)).1 h)
      rw [rdropWhile_cons_of_not_all _ _ _ hall, ← ih]
      simp only [hlen, and_false, if_false]

/-- The chain of the code, step by step, is the chain of the specification. -/
theorem generateSlugChars_eq_spec (t : List Char) :
    generateSlugChars t
      = specStripTrailing (specStripLeading (specCollapseHyphens
          (specKeepSlugChars (specHyphenateWhitespace (specLowercase t))))) := by
  have hfilter : (fun c => !isNotWordOrHyphen c)
      = (fun c : Char => c.isAlphanum || c == '_' || c == '-') := by
    funext c
    simp only [isNotWordOrHyphen, Bool.not_not]
    exact isWordChar_or_hyphen c
  unfold generateSlugChars specStripTrailing specStripLeading specCollapseHyphens
    specKeepSlugChars specHyphenateWhitespace specLowercase
  rw [replaceTrailingHyphens_eq, replaceLeadingHyphens_eq,
    replaceAllRuns_eq_replaceMaximalRuns isHyphen 2 _ _ _ (le_refl _),
    replaceAllRuns_empty_eq_filter isNotWordOrHyphen _ _ (le_refl _),
    replaceAllRuns_eq_replaceMaximalRuns isWhiteSpace 1 _ _ _ (le_refl _), hfilter]
  rfl

/-! ## Squeezing runs: a one-pass form of the two run replacements -/

theorem squeezeRuns_true_eq (cls : Char → Bool) (l : List Char) :
    squeezeRuns cls true l = squeezeRuns cls false (l.dropWhile cls) := by
  induction l with
  | nil => rfl
  | cons c cs ih =>
    cases hc : cls c
    · simp [squeezeRuns, List.dropWhile_cons, hc]
    · simp [squeezeRuns, List.dropWhile_cons, hc, ih]

theorem replaceMaximalRuns_one_eq_squeeze (cls : Char → Bool) :
    ∀ (n : Nat) (l : List Char), l.length ≤ n →
      replaceMaximalRuns cls 1 ['-'] l = squeezeRuns cls false l := by
  intro n
  induction n with
  | zero =>
    intro l hl
    have : l = [] := List.eq_nil_of_length_eq_zero (by omega)
    subst this
    rfl
  | succ n ih =>
    intro l hl
    cases l with
    | nil => rfl
    | cons c cs =>
      have hlen : cs.length ≤ n := by simpa using hl
      cases hc : cls c
      · rw [replaceMaximalRuns_other _ _ _ _ _ hc, ih cs hlen]
        simp [squeezeRuns, hc]
      · have hdrop : (cs.dropWhile cls).length ≤ n :=
          le_trans (List.dropWhile_sublist cls).length_le hlen
        rw [replaceMaximalRuns_run _ _ _ _ _ hc, if_pos (by omega), ih _ hdrop]
        simp [squeezeRuns, hc, squeezeRuns_true_eq]

theorem replaceMaximalRuns_hyphen_two_eq_squeeze :
    ∀ (n : Nat) (l : List Char), l.length ≤ n →
      replaceMaximalRuns isHyphen 2 ['-'] l = squeezeRuns isHyphen false l := by
  intro n
  induction n with
  | zero =>
    intro l hl
    have : l = [] := List.eq_nil_of_length_eq_zero (by omega)
    subst this
    rfl
  | succ n ih =>
    intro l hl
    cases l with
    | nil => rfl
    | cons c cs =>
      have hlen : cs.length ≤ n := by simpa using hl
      cases hc : isHyphen c
      · rw [replaceMaximalRuns_other _ _ _ _ _ hc, ih cs hlen]
        simp [squeezeRuns, hc]
      · have hdrop : (cs.dropWhile isHyphen).length ≤ n :=
          le_trans (List.dropWhile_sublist isHyphen).length_le hlen
        have hceq : c = '-' := by simpa [isHyphen] using hc
        rw [replaceMaximalRuns_run _ _ _ _ _ hc, ih _ hdrop]
        by_cases h : 2 ≤ 1 + (cs.takeWhile isHyphen).length
        · rw [if_pos h]
          simp [squeezeRuns, hc, squeezeRuns_true_eq]
        · have h0 : cs.takeWhile isHyphen = [] := List.eq_nil_of_length_eq_zero (by omega)
          rw [if_neg h, h0, hceq]
          simp [squeezeRuns, isHyphen, squeezeRuns_true_eq]

/-- The chain of the code in one-pass form. -/
theorem generateSlugChars_eq_squeeze (t : List Char) :
    generateSlugChars t
      = ((squeezeRuns isHyphen false
          ((squeezeRuns isWhiteSpace false (toLowerCase t)).filter
            (fun c => !isNotWordOrHyphen c))).dropWhile isHyphen).rdropWhile isHyphen := by
  unfold generateSlugChars
  rw [replaceTrailingHyphens_eq, replaceLeadingHyphens_eq,
    replaceAllRuns_eq_replaceMaximalRuns isHyphen 2 _ _ _ (le_refl _),
    replaceAllRuns_empty_eq_filter isNotWordOrHyphen _ _ (le_refl _),
    replaceAllRuns_eq_replaceMaximalRuns isWhiteSpace 1 _ _ _ (le_refl _),
    replaceMaximalRuns_hyphen_two_eq_squeeze _ _ (le_refl _),
    replaceMaximalRuns_one_eq_squeeze _ _ _ (le_refl _)]

/-! ## Shape of a derived slug -/

theorem char_val_ge (c : Char) (k : Nat) (hk : k < 4294967296) :
    decide (c.val ≥ UInt32.ofNat k) = decide (k ≤ c.toNat) := by
  apply decide_eq_decide.2
  show (UInt32.ofNat k).toNat ≤ c.val.toNat ↔ _
  simp [UInt32.ofNat, Char.toNat, Nat.mod_eq_of_lt hk, Fin.ofNat]

theorem char_val_le (c : Char) (k : Nat) (hk : k < 4294967296) :
    decide (c.val ≤ UInt32.ofNat k) = decide (c.toNat ≤ k) := by
  apply decide_eq_decide.2
  show c.val.toNat ≤ (UInt32.ofNat k).toNat ↔ _
  simp [UInt32.ofNat, Char.toNat, Nat.mod_eq_of_lt hk, Fin.ofNat]

theorem mem_squeezeRuns (cls : Char → Bool) (x : Char) :
    ∀ (l : List Char) (prev : Bool), x ∈ squeezeRuns cls prev l → x = '-' ∨ x ∈ l := by
  intro l
  induction l with
  | nil => intro prev h; simp [squeezeRuns] at h
  | cons c cs ih =>
    intro prev h
    cases hc : cls c
    · simp only [squeezeRuns, hc, Bool.false_eq_true, if_false, List.mem_cons] at h
      rcases h with rfl | h
      · exact Or.inr (List.mem_cons_self _ _)
      · exact (ih false h).imp id (List.mem_cons_of_mem _)
    · cases prev
      · simp only [squeezeRuns, hc, if_true, Bool.false_eq_true, if_false, List.mem_cons] at h
        rcases h with rfl | h
        · exact Or.inl rfl
        · exact (ih true h).imp id (List.mem_cons_of_mem _)
      · simp only [squeezeRuns, hc, if_true] at h
        exact (ih true h).imp id (List.mem_cons_of_mem _)

theorem lowerChar_not_upper (c x : Char) (hx : x ∈ lowerChar c) :
    ¬ (0x41 ≤ x.toNat ∧ x.toNat ≤ 0x5A) := by
  unfold lowerChar at hx
  simp only at hx
  split_ifs at hx with h1 h2 h3
  · obtain ⟨n, hn⟩ : ∃ n, c.toNat = n := ⟨_, rfl⟩
    rw [hn] at hx h1
    obtain ⟨h1a, h1b⟩ := h1
    have hx' : x = Char.ofNat (n + 32) := by simpa using hx
    subst hx'
    interval_cases n <;> decide
  · have hx' : x = 'k' := by simpa using hx
    subst hx'
    decide
  · simp only [List.mem_cons, List.mem_singleton, List.mem_nil_iff, or_false] at hx
    rcases hx with rfl | rfl <;> decide
  · have hx' : x = c := by simpa using hx
    subst hx'
    exact h1

theorem toLowerCase_not_upper (t : List Char) (x : Char) (hx : x ∈ toLowerCase t) :
    ¬ (0x41 ≤ x.toNat ∧ x.toNat ≤ 0x5A) := by
  obtain ⟨c, _, hc⟩ := List.mem_flatMap.1 hx
  exact lowerChar_not_upper c x hc

/-- A kept character that is not an uppercase letter is a lowercase letter, a digit,
an underscore or a hyphen. -/
theorem slugChar_of_kept (x : Char) (hk : (isWordChar x || isHyphen x) = true)
    (hu : ¬ (0x41 ≤ x.toNat ∧ x.toNat ≤ 0x5A)) :
    (x.isLower || x.isDigit || x == '_' || x == '-') = true := by
  have h5f : (x.toNat == 0x5F) = (x == '_') := by
    rw [Bool.eq_iff_iff]
    simp only [beq_iff_eq]
    constructor
    · intro h
      apply Char.ext
      apply UInt32.ext
      exact h
    · rintro rfl; rfl
  have a3 : decide (x.val ≥ 97) = decide (97 ≤ x.toNat) := char_val_ge x 97 (by decide)
  have a4 : decide (x.val ≤ 122) = decide (x.toNat ≤ 122) := char_val_le x 122 (by decide)
  have a5 : decide (x.val ≥ 48) = decide (48 ≤ x.toNat) := char_val_ge x 48 (by decide)
  have a6 : decide (x.val ≤ 57) = decide (x.toNat ≤ 57) := char_val_le x 57 (by decide)
  simp only [Char.isLower, Char.isDigit, a3, a4, a5, a6]
  simp only [isWordChar, isHyphen, h5f] at hk
  simp only [Bool.or_eq_true, Bool.and_eq_true, decide_eq_true_eq] at hk ⊢
  rcases hk with (((h | h) | h) | h) | h
  · exact absurd h hu
  · exact Or.inl (Or.inl (Or.inl h))
  · exact Or.inl (Or.inl (Or.inr h))
  · exact Or.inl (Or.inr h)
  · exact Or.inr h

theorem squeezeRuns_true_head (cls : Char → Bool) :
    ∀ l : List Char, ∀ x ∈ (squeezeRuns cls true l).head?, cls x = false := by
  intro l
  induction l with
  | nil => intro x hx; simp [squeezeRuns] at hx
  | cons c cs ih =>
    intro x hx
    cases hc : cls c
    · simp only [squeezeRuns, hc, Bool.false_eq_true, if_false, List.head?_cons,
        Option.mem_def, Option.some.injEq] at hx
      rw [← hx]; exact hc
    · simp only [squeezeRuns, hc, if_true] at hx
      exact ih x hx

/-- Squeezed hyphens: no two adjacent characters of the result are both hyphens. -/
theorem squeezeRuns_hyphen_chain :
    ∀ (l : List Char) (prev : Bool),
      (squeezeRuns isHyphen prev l).Chain' (fun a b => ¬ (isHyphen a = true ∧ isHyphen b = true)) := by
  intro l
  induction l with
  | nil => intro prev; simp [squeezeRuns]
  | cons c cs ih =>
    intro prev
    cases hc : isHyphen c
    · simp only [squeezeRuns, hc, Bool.false_eq_true, if_false]
      refine List.chain'_cons'.2 ⟨fun y _ h => ?_, ih false⟩
      rw [hc] at h
      exact Bool.false_ne_true h.1
    · cases prev
      · simp only [squeezeRuns, hc, if_true, Bool.false_eq_true, if_false]
        refine List.chain'_cons'.2 ⟨fun y hy h => ?_, ih true⟩
        have := squeezeRuns_true_head isHyphen cs y hy
        rw [this] at h
        exact Bool.false_ne_true h.2
      · simp only [squeezeRuns, hc, if_true]
        exact ih true

theorem initialSlug_eq_generateSlug (title : String) : initialSlug title = generateSlug title :=
  rfl

/-- C3: for every title, the inline chain of the handler and `generateSlug` both
compute the six steps of the specification applied in order (lowercase, one
hyphen per maximal whitespace run, keep only alphanumerics, underscores and
hyphens, collapse runs of two or more hyphens, strip leading hyphens, strip
trailing hyphens); in particular `Hello World!` gives `hello-world`,
`  --Foo_Bar--  ` gives `foo_bar` and the empty title gives the empty slug. -/
theorem slug_deriver_refines_spec :
    (∀ title : String,
      initialSlug title = specDerive title ∧ generateSlug title = specDerive title) ∧
    generateSlug "Hello World!" = "hello-world" ∧
    generateSlug "  --Foo_Bar--  " = "foo_bar" ∧
    generateSlug "" = "" := by
  refine ⟨fun title => ?_, by decide, by decide, by decide⟩
  have h : generateSlug title = specDerive title := by
    unfold generateSlug specDerive
    rw [generateSlugChars_eq_spec]
  exact ⟨h, h⟩

/-- C4: for every title, every character of the derived slug is a lowercase ASCII
letter, an ASCII digit, an underscore or a hyphen; the slug does not start with
a hyphen, does not end with a hyphen and contains no two consecutive hyphens.
The handler's inline chain computes the same slug. -/
theorem slug_deriver_canonical (title : String) :
    initialSlug title = generateSlug title ∧
    (∀ c ∈ (generateSlug title).data,
      (c.isLower || c.isDigit || c == '_' || c == '-') = true) ∧
    ¬ (['-'] <+: (generateSlug title).data) ∧
    ¬ (['-'] <:+ (generateSlug title).data) ∧
    ¬ (['-', '-'] <:+: (generateSlug title).data) := by
  have hform := generateSlugChars_eq_squeeze title.data
  have hdata : (generateSlug title).data = generateSlugChars title.data := rfl
  rw [hdata, hform]
  set X := squeezeRuns isHyphen false
    ((squeezeRuns isWhiteSpace false (toLowerCase title.data)).filter
      (fun c => !isNotWordOrHyphen c)) with hX
  have hpre : (X.dropWhile isHyphen).rdropWhile isHyphen <+: X.dropWhile isHyphen :=
    List.rdropWhile_prefix _ _
  have hsuf : X.dropWhile isHyphen <:+ X := List.dropWhile_suffix _
  refine ⟨rfl, ?_, ?_, ?_, ?_⟩
  · intro c hc
    have hcX : c ∈ X := hsuf.subset (hpre.subset hc)
    rcases mem_squeezeRuns _ _ _ _ hcX with rfl | hmem
    · decide
    · obtain ⟨hmem2, hkeep⟩ := List.mem_filter.1 hmem
      have hkeep' : (isWordChar c || isHyphen c) = true := by
        simpa [isNotWordOrHyphen] using hkeep
      rcases mem_squeezeRuns _ _ _ _ hmem2 with rfl | hlow
      · decide
      · exact slugChar_of_kept c hkeep' (toLowerCase_not_upper _ _ hlow)
  · rintro ⟨r, hr⟩
    obtain ⟨r', hr'⟩ := hpre
    have hhead : (X.dropWhile isHyphen).head? = some '-' := by
      rw [← hr', ← hr]; rfl
    have := List.head?_dropWhile_not isHyphen X
    rw [hhead] at this
    exact absurd this (by decide)
  · rintro ⟨r, hr⟩
    have hne : (X.dropWhile isHyphen).rdropWhile isHyphen ≠ [] := by
      rw [← hr]; simp
    have hlast := List.rdropWhile_last_not isHyphen (X.dropWhile isHyphen) hne
    apply hlast
    have : ((X.dropWhile isHyphen).rdropWhile isHyphen).getLast hne = '-' := by
      simp only [← hr]
      simp
    rw [this]; rfl
  · intro hinf
    have hchain := squeezeRuns_hyphen_chain
      ((squeezeRuns isWhiteSpace false (toLowerCase title.data)).filter
        (fun c => !isNotWordOrHyphen c)) false
    have hin : ['-', '-'] <:+: X :=
      hinf.trans (hpre.isInfix.trans hsuf.isInfix)
    have h2 := hchain.infix hin
    simp [List.Chain', isHyphen] at h2

/-! ## Extra whitespace does not change the slug -/

theorem lowerChar_whitespace (w : Char) (hw : isWhiteSpace w = true) : lowerChar w = [w] := by
  have h : ¬ (0x41 ≤ w.toNat ∧ w.toNat ≤ 0x5A) ∧ w.toNat ≠ 0x212A ∧ w.toNat ≠ 0x130 := by
    simp only [isWhiteSpace, Bool.or_eq_true, Bool.and_eq_true, beq_iff_eq,
      decide_eq_true_eq] at hw
    omega
  unfold lowerChar
  simp only
  rw [if_neg h.1, if_neg h.2.1, if_neg h.2.2]

theorem toLowerCase_append (a b : List Char) :
    toLowerCase (a ++ b) = toLowerCase a ++ toLowerCase b := by
  simp [toLowerCase, List.flatMap_append]

theorem toLowerCase_cons_whitespace (w : Char) (hw : isWhiteSpace w = true) (t : List Char) :
    toLowerCase (w :: t) = w :: toLowerCase t := by
  simp [toLowerCase, List.flatMap_cons, lowerChar_whitespace w hw]

theorem squeezeRuns_insert_after (cls : Char → Bool) (c w : Char) (hc : cls c = true)
    (hw : cls w = true) (b : List Char) :
    ∀ (a : List Char) (prev : Bool),
      squeezeRuns cls prev (a ++ c :: w :: b) = squeezeRuns cls prev (a ++ c :: b) := by
  intro a
  induction a with
  | nil => intro prev; cases prev <;> simp [squeezeRuns, hc, hw]
  | cons x xs ih =>
    intro prev
    cases hx : cls x <;> cases prev <;> simp [squeezeRuns, hx, ih]

theorem squeezeRuns_insert_before (cls : Char → Bool) (c w : Char) (hc : cls c = true)
    (hw : cls w = true) (b : List Char) :
    ∀ (a : List Char) (prev : Bool),
      squeezeRuns cls prev (a ++ w :: c :: b) = squeezeRuns cls prev (a ++ c :: b) := by
  intro a
  induction a with
  | nil => intro prev; cases prev <;> simp [squeezeRuns, hc, hw]
  | cons x xs ih =>
    intro prev
    cases hx : cls x <;> cases prev <;> simp [squeezeRuns, hx, ih]

theorem squeezeRuns_cons_run (cls : Char → Bool) (w : Char) (hw : cls w = true)
    (t : List Char) :
    squeezeRuns cls false (w :: t) = squeezeRuns cls false t ∨
      squeezeRuns cls false (w :: t) = '-' :: squeezeRuns cls false t := by
  cases t with
  | nil => right; simp [squeezeRuns, hw]
  | cons c cs =>
    cases hc : cls c
    · right; simp [squeezeRuns, hw, hc]
    · left; simp [squeezeRuns, hw, hc]

theorem squeezeRuns_concat_run (cls : Char → Bool) (w : Char) (hw : cls w = true) :
    ∀ (t : List Char) (prev : Bool),
      squeezeRuns cls prev (t ++ [w]) = squeezeRuns cls prev t ∨
        squeezeRuns cls prev (t ++ [w]) = squeezeRuns cls prev t ++ ['-'] := by
  intro t
  induction t with
  | nil => intro prev; cases prev <;> simp [squeezeRuns, hw]
  | cons c cs ih =>
    intro prev
    cases hc : cls c
    · rcases ih false with h | h
      · left; simp [squeezeRuns, hc, h]
      · right; simp [squeezeRuns, hc, h]
    · rcases ih true with h | h
      · left; cases prev <;> simp [squeezeRuns, hc, h]
      · right; cases prev <;> simp [squeezeRuns, hc, h]

theorem strip_concat_hyphen (x : List Char) :
    ((x ++ ['-']).dropWhile isHyphen).rdropWhile isHyphen
      = (x.dropWhile isHyphen).rdropWhile isHyphen := by
  have hh : isHyphen '-' = true := rfl
  by_cases hall : ∀ y ∈ x, isHyphen y = true
  · have h1 : (x ++ ['-']).dropWhile isHyphen = [] := by
      apply List.dropWhile_eq_nil_iff.2
      intro y hy
      rcases List.mem_append.1 hy with hy | hy
      · exact hall y hy
      · simp only [List.mem_singleton] at hy
        rw [hy]; rfl
    have h2 : x.dropWhile isHyphen = [] := List.dropWhile_eq_nil_iff.2 hall
    rw [h1, h2]
  · have hne : x.dropWhile isHyphen ≠ [] := fun h => hall (List.dropWhile_eq_nil_iff.1 h)
    have h1 : (x ++ ['-']).dropWhile isHyphen = x.dropWhile isHyphen ++ ['-'] := by
      rw [List.dropWhile_append]
      simp [hne]
    rw [h1, List.rdropWhile_concat_pos _ _ _ hh]

theorem finishSlug_cons_hyphen (u : List Char) : finishSlug ('-' :: u) = finishSlug u := by
  unfold finishSlug
  have hk : (!isNotWordOrHyphen '-') = true := by decide
  rw [List.filter_cons, if_pos hk]
  rcases squeezeRuns_cons_run isHyphen '-' rfl
    (u.filter (fun c => !isNotWordOrHyphen c)) with h | h
  · rw [h]
  · rw [h, List.dropWhile_cons_of_pos (by rfl)]

theorem finishSlug_concat_hyphen (u : List Char) : finishSlug (u ++ ['-']) = finishSlug u := by
  unfold finishSlug
  have hk : (!isNotWordOrHyphen '-') = true := by decide
  have hf : (u ++ ['-']).filter (fun c => !isNotWordOrHyphen c)
      = u.filter (fun c => !isNotWordOrHyphen c) ++ ['-'] := by
    rw [List.filter_append, List.filter_cons, if_pos hk, List.filter_nil]
  rw [hf]
  rcases squeezeRuns_concat_run isHyphen '-' rfl
    (u.filter (fun c => !isNotWordOrHyphen c)) false with h | h
  · rw [h]
  · rw [h, strip_concat_hyphen]

theorem generateSlugChars_eq_finish (t : List Char) :
    generateSlugChars t = finishSlug (squeezeRuns isWhiteSpace false (toLowerCase t)) :=
  generateSlugChars_eq_squeeze t

theorem generateSlugChars_extra_whitespace (t t' : List Char) (h : ExtraWhitespace t t') :
    generateSlugChars t' = generateSlugChars t := by
  induction h with
  | same => rfl
  | atStart t' w hw _ ih =>
    rw [← ih, generateSlugChars_eq_finish, generateSlugChars_eq_finish,
      toLowerCase_cons_whitespace w hw]
    rcases squeezeRuns_cons_run isWhiteSpace w hw (toLowerCase t') with h | h
    · rw [h]
    · rw [h, finishSlug_cons_hyphen]
  | atEnd t' w hw _ ih =>
    rw [← ih, generateSlugChars_eq_finish, generateSlugChars_eq_finish, toLowerCase_append,
      toLowerCase_cons_whitespace w hw]
    rcases squeezeRuns_concat_run isWhiteSpace w hw (toLowerCase t') false with h | h
    · have : toLowerCase [] = [] := rfl
      rw [this, h]
    · have : toLowerCase [] = [] := rfl
      rw [this, h, finishSlug_concat_hyphen]
  | afterWhitespace a b c w hc hw _ ih =>
    rw [← ih, generateSlugChars_eq_finish, generateSlugChars_eq_finish, toLowerCase_append,
      toLowerCase_append, toLowerCase_cons_whitespace c hc, toLowerCase_cons_whitespace c hc,
      toLowerCase_cons_whitespace w hw, squeezeRuns_insert_after _ _ _ hc hw]
  | beforeWhitespace a b c w hc hw _ ih =>
    rw [← ih, generateSlugChars_eq_finish, generateSlugChars_eq_finish, toLowerCase_append,
      toLowerCase_append, toLowerCase_cons_whitespace w hw, toLowerCase_cons_whitespace c hc,
      squeezeRuns_insert_before _ _ _ hc hw]

/-- C5: for every title `t` and every `t'` obtained from `t` by lengthening existing
runs of whitespace with further whitespace characters, or by adding whitespace
at the start or at the end, the slug derived from `t'` is the slug derived from
`t`, for `generateSlug` and for the inline chain of the handler alike. -/
theorem slug_deriver_extra_whitespace (t t' : String) (h : ExtraWhitespace t.data t'.data) :
    generateSlug t' = generateSlug t ∧ initialSlug t' = initialSlug t := by
  have hg : generateSlug t' = generateSlug t := by
    unfold generateSlug
    rw [generateSlugChars_extra_whitespace _ _ h]
  exact ⟨hg, hg⟩

theorem slug_deriver_extra_whitespace_witness :
    ExtraWhitespace "Hello World".data "\n Hello \t World ".data ∧
    generateSlug "\n Hello \t World " = generateSlug "Hello World" ∧
    initialSlug "\n Hello \t World " = initialSlug "Hello World" :=
  have h : ExtraWhitespace "Hello World".data "\n Hello \t World ".data :=
    ExtraWhitespace.atStart _ _ '\n' (by decide)
      (ExtraWhitespace.atStart _ _ ' ' (by decide)
        (ExtraWhitespace.atEnd _ "Hello \t World".data ' ' (by decide)
          (ExtraWhitespace.beforeWhitespace _ "Hello ".data "World".data ' ' '\t' (by decide)
            (by decide)
            (ExtraWhitespace.afterWhitespace _ "Hello".data "World".data ' ' ' ' (by decide)
              (by decide) (ExtraWhitespace.same _)))))
  ⟨h, slug_deriver_extra_whitespace "Hello World" "\n Hello \t World " h⟩

/-! ## The handler, one request at a time -/

theorem variant_succ_ne_empty (b : String) (k : Nat) : variant b (k + 1) ≠ "" := by
  intro h
  have := congrArg String.length h
  simp only [variant, String.length_append] at this
  have h1 : "-".length = 1 := rfl
  have h2 : "".length = 0 := rfl
  omega

theorem variant_ne_empty (b : String) (hb : b ≠ "") (k : Nat) : variant b k ≠ "" := by
  cases k with
  | zero => exact hb
  | succ k => exact variant_succ_ne_empty b k

theorem preSave_of_slug (doc : Blog) (h : doc.slug ≠ "") : preSave doc = doc := by
  simp [preSave, h]

theorem save_ok (db : Db) (doc : Blog) (hv : validateBlog doc = true)
    (hfree : doc.slug ∉ slugs db.blogs) :
    save db doc = Except.ok (doc, { db with blogs := db.blogs ++ [doc] }) := by
  have hslug : doc.slug ≠ "" := by
    simp only [validateBlog, Bool.and_eq_true, bne_iff_ne] at hv
    exact hv.1.1.1.1.2
  have hnone := (findOneBySlug_eq_none db.blogs doc.slug).2 hfree
  simp [save, hv, preSave_of_slug doc hslug, hnone]

theorem save_eq_ok (db : Db) (doc d : Blog) (db' : Db) (h : save db doc = Except.ok (d, db')) :
    d = doc ∧ doc.slug ∉ slugs db.blogs ∧ db' = { db with blogs := db.blogs ++ [doc] } := by
  unfold save at h
  by_cases hv : validateBlog doc = true
  · have hslug : doc.slug ≠ "" := by
      simp only [validateBlog, Bool.and_eq_true, bne_iff_ne] at hv
      exact hv.1.1.1.1.2
    simp only [hv, if_true, preSave_of_slug doc hslug] at h
    by_cases hs : (findOneBySlug db.blogs doc.slug).isSome = true
    · simp [hs] at h
    · simp only [hs, Bool.false_eq_true, if_false, Except.ok.injEq, Prod.mk.injEq] at h
      refine ⟨h.1.symm, ?_, h.2.symm⟩
      intro hmem
      exact hs ((findOneBySlug_isSome _ _).2 hmem)
  · simp [hv] at h

/-- What one run of the handler does, given enough fuel for the probe loop: either
nothing is committed and the database is unchanged, or one post is appended whose
slug is the first free variant of the derived base. -/
theorem createBlog_spec (fuel : Nat) (db : Db) (req : Request) (hfuel : db.blogs.length < fuel) :
    ∃ resp db', createBlog fuel db req = some (resp, db') ∧
      ((committedSlug resp = none ∧ db' = db) ∨
       (∃ k doc, resp = Response.created doc ∧ doc.slug = variant (initialSlug req.title) k ∧
          variant (initialSlug req.title) k ∉ slugs db.blogs ∧
          (∀ j, j < k → variant (initialSlug req.title) j ∈ slugs db.blogs) ∧
          db' = { db with blogs := db.blogs ++ [doc] })) := by
  obtain ⟨k, _, halloc, hfree, htaken⟩ :=
    allocate_first_free fuel db.blogs (initialSlug req.title) hfuel
  unfold createBlog
  split_ifs with hguard
  · exact ⟨_, _, rfl, Or.inl ⟨rfl, rfl⟩⟩
  · cases hfile : req.file with
    | none => exact ⟨_, _, rfl, Or.inl ⟨rfl, rfl⟩⟩
    | some file =>
      cases hcat : findOneCategory db.categories req.category with
      | none => exact ⟨_, _, rfl, Or.inl ⟨rfl, rfl⟩⟩
      | some cat =>
        cases hup : uploadImage file with
        | none =>
          simp only [hup]
          exact ⟨_, _, rfl, Or.inl ⟨rfl, rfl⟩⟩
        | some imageUrl =>
          simp only [hup, halloc]
          cases hsave : save db (newBlog req (variant (initialSlug req.title) k) imageUrl) with
          | error e => exact ⟨_, _, rfl, Or.inl ⟨rfl, rfl⟩⟩
          | ok out =>
            obtain ⟨d, db'⟩ := out
            obtain ⟨hd, _, hdb⟩ := save_eq_ok _ _ _ _ hsave
            refine ⟨_, _, rfl, Or.inr ⟨k, d, rfl, ?_, hfree, htaken, ?_⟩⟩
            · rw [hd]; rfl
            · rw [hdb, hd]

/-- An accepted request whose derived base is not empty creates a post with the
first free variant of the base. -/
theorem createBlog_accepted (fuel : Nat) (db : Db) (req : Request)
    (hfuel : db.blogs.length < fuel) (hacc : accepted db req = true)
    (hbase : initialSlug req.title ≠ "") :
    ∃ k doc, createBlog fuel db req
        = some (Response.created doc, { db with blogs := db.blogs ++ [doc] }) ∧
      doc.slug = variant (initialSlug req.title) k ∧
      variant (initialSlug req.title) k ∉ slugs db.blogs ∧
      (∀ j, j < k → variant (initialSlug req.title) j ∈ slugs db.blogs) := by
  obtain ⟨k, _, halloc, hfree, htaken⟩ :=
    allocate_first_free fuel db.blogs (initialSlug req.title) hfuel
  unfold accepted at hacc
  simp only [Bool.and_eq_true, bne_iff_ne, ne_eq] at hacc
  obtain ⟨⟨⟨⟨⟨ht, hd⟩, hbd⟩, hc⟩, hcat⟩, hfile⟩ := hacc
  cases hf : req.file with
  | none => simp [hf] at hfile
  | some file =>
    cases hup : uploadImage file with
    | none => simp [hf, hup] at hfile
    | some imageUrl =>
      have hurl : imageUrl ≠ "" := by simpa [hf, hup] using hfile
      obtain ⟨cat, hcat'⟩ := Option.isSome_iff_exists.1 hcat
      have hv : validateBlog (newBlog req (variant (initialSlug req.title) k) imageUrl) = true := by
        simp [validateBlog, newBlog, ht, hd, hbd, hc, hurl, variant_ne_empty _ hbase k]
      have hsave := save_ok db (newBlog req (variant (initialSlug req.title) k) imageUrl) hv hfree
      refine ⟨k, newBlog req (variant (initialSlug req.title) k) imageUrl, ?_, rfl, hfree, htaken⟩
      unfold createBlog
      rw [if_neg (by simp [ht, hd, hbd, hc])]
      simp only [hf, hcat', hup, halloc, hsave]

/-! ## Sequences of requests -/

theorem accepted_congr (db db' : Db) (req : Request) (h : db'.categories = db.categories) :
    accepted db' req = accepted db req := by
  simp [accepted, h]

theorem createAll_cons (fuel : Nat) (db db1 : Db) (req : Request) (reqs : List Request)
    (resp : Response) (resps : List Response) (db2 : Db)
    (h1 : createBlog fuel db req = some (resp, db1))
    (h2 : createAll fuel db1 reqs = some (resps, db2)) :
    createAll fuel db (req :: reqs) = some (resp :: resps, db2) := by
  simp [createAll, h1, h2]

/-- Sequential creation keeps the slugs pairwise distinct and only appends the
created posts. -/
theorem createAll_nodup_aux : ∀ (reqs : List Request) (db : Db) (fuel : Nat),
    db.blogs.length + reqs.length ≤ fuel → (slugs db.blogs).Nodup →
    ∃ resps db', createAll fuel db reqs = some (resps, db') ∧
      resps.length = reqs.length ∧
      (slugs db'.blogs).Nodup ∧
      db'.blogs = db.blogs ++ createdDocs resps ∧
      db'.categories = db.categories := by
  intro reqs
  induction reqs with
  | nil =>
    intro db fuel _ hnd
    exact ⟨[], db, rfl, rfl, hnd, by simp [createdDocs], rfl⟩
  | cons req reqs ih =>
    intro db fuel hfuel hnd
    simp only [List.length_cons] at hfuel
    obtain ⟨resp, db1, hrun, hcase⟩ := createBlog_spec fuel db req (by omega)
    rcases hcase with ⟨hnone, hdb⟩ | ⟨k, doc, hresp, hslug, hfree, _, hdb⟩
    · subst hdb
      obtain ⟨resps, db2, hrest, hlen, hnd2, hblogs, hcats⟩ := ih db1 fuel (by omega) hnd
      refine ⟨resp :: resps, db2, createAll_cons _ _ _ _ _ _ _ _ hrun hrest, by simp [hlen],
        hnd2, ?_, hcats⟩
      rw [hblogs]
      cases resp with
      | created d => simp [committedSlug] at hnone
      | badRequest m => rfl
      | serverError m => rfl
    · have hnd1 : (slugs db1.blogs).Nodup := by
        rw [hdb]
        simp only [slugs, List.map_append, List.map_cons, List.map_nil]
        refine List.Nodup.append hnd (List.nodup_singleton _) ?_
        intro x hx hx'
        simp only [List.mem_singleton] at hx'
        rw [hx', hslug] at hx
        exact hfree hx
      have hlen1 : db1.blogs.length = db.blogs.length + 1 := by rw [hdb]; simp
      obtain ⟨resps, db2, hrest, hlen, hnd2, hblogs, hcats⟩ := ih db1 fuel (by omega) hnd1
      refine ⟨resp :: resps, db2, createAll_cons _ _ _ _ _ _ _ _ hrun hrest, by simp [hlen],
        hnd2, ?_, ?_⟩
      · rw [hblogs, hresp, hdb]
        simp [createdDocs]
      · rw [hcats, hdb]

/-- A run of accepted requests with one title whose base is not empty, started
where the variants below `n0` are taken and the next ones are free, commits the
variants from `n0` on, in order. -/
theorem createAll_same_title_aux (T : String) (hbase : initialSlug T ≠ "") :
    ∀ (reqs : List Request) (db : Db) (fuel n0 : Nat),
      db.blogs.length + reqs.length ≤ fuel →
      (∀ r ∈ reqs, r.title = T ∧ accepted db r = true) →
      (∀ j, j < n0 → variant (initialSlug T) j ∈ slugs db.blogs) →
      (∀ k, n0 ≤ k → k < n0 + reqs.length → variant (initialSlug T) k ∉ slugs db.blogs) →
      ∃ resps db', createAll fuel db reqs = some (resps, db') ∧
        resps.map committedSlug
          = (List.range' n0 reqs.length).map (fun k => some (variant (initialSlug T) k)) := by
  intro reqs
  induction reqs with
  | nil =>
    intro db fuel n0 _ _ _ _
    exact ⟨[], db, rfl, rfl⟩
  | cons req reqs ih =>
    intro db fuel n0 hfuel hreqs htaken hfree
    simp only [List.length_cons] at hfuel hfree
    obtain ⟨htitle, hacc⟩ := hreqs req (List.mem_cons_self _ _)
    have hbase' : initialSlug req.title ≠ "" := by rw [htitle]; exact hbase
    obtain ⟨k, doc, hrun, hslug, hkfree, hktaken⟩ :=
      createBlog_accepted fuel db req (by omega) hacc hbase'
    rw [htitle] at hslug hkfree hktaken
    have hk : k = n0 := by
      have h1 : ¬ n0 < k := fun h => hfree n0 (le_refl _) (by omega) (hktaken n0 h)
      have h2 : ¬ k < n0 := fun h => hkfree (htaken k h)
      omega
    subst hk
    have hreqs' : ∀ r ∈ reqs, r.title = T ∧
        accepted { db with blogs := db.blogs ++ [doc] } r = true := by
      intro r hr
      obtain ⟨h1, h2⟩ := hreqs r (List.mem_cons_of_mem _ hr)
      exact ⟨h1, (accepted_congr db { db with blogs := db.blogs ++ [doc] } r rfl).symm.trans h2⟩
    obtain ⟨resps, db2, hrest, hmap⟩ := ih { db with blogs := db.blogs ++ [doc] } fuel (k + 1)
      (by simp; omega) hreqs'
      (by
        intro j hj
        simp only [slugs, List.map_append, List.mem_append, List.map_cons, List.map_nil,
          List.mem_singleton]
        by_cases hjk : j < k
        · exact Or.inl (htaken j hjk)
        · have : j = k := by omega
          exact Or.inr (by rw [this, hslug]))
      (by
        intro k' h1 h2 hmem
        simp only [slugs, List.map_append, List.mem_append, List.map_cons, List.map_nil,
          List.mem_singleton] at hmem
        rcases hmem with hmem | hmem
        · exact hfree k' (by omega) (by omega) hmem
        · rw [hslug] at hmem
          have := variant_injective _ _ _ hmem
          omega)
    refine ⟨Response.created doc :: resps, db2, createAll_cons _ _ _ _ _ _ _ _ hrun hrest, ?_⟩
    rw [List.map_cons, hmap]
    simp only [committedSlug, hslug, List.length_cons, List.range'_succ, List.map_cons]

theorem committedBy_cons (sel : Request → Bool) (req : Request) (reqs : List Request)
    (resp : Response) (resps : List Response) :
    committedBy sel (req :: reqs) (resp :: resps)
      = (if sel req then (committedSlug resp).toList else []) ++ committedBy sel reqs resps :=
  rfl

theorem mem_slugs_append (blogs : List Blog) (doc : Blog) (s : String) :
    s ∈ slugs (blogs ++ [doc]) ↔ s ∈ slugs blogs ∨ s = doc.slug := by
  simp [slugs]

/-- A run started where the variants of `b` below `n0` are taken: when the next
variants are free and the requests of other bases stay clear of them, the
requests of base `b` commit the variants from `n0` on, in order. -/
theorem createAll_base_aux (b : String) :
    ∀ (reqs : List Request) (db : Db) (fuel n0 : Nat),
      db.blogs.length + reqs.length ≤ fuel →
      (∀ j, j < n0 → variant b j ∈ slugs db.blogs) →
      ∃ resps db', createAll fuel db reqs = some (resps, db') ∧
        ((∀ k, n0 ≤ k → k < n0 + (committedBy (hasBase b) reqs resps).length →
            variant b k ∉ slugs db.blogs) →
         (∀ k, k < n0 + (committedBy (hasBase b) reqs resps).length →
            variant b k ∉ committedBy (fun r => !hasBase b r) reqs resps) →
         committedBy (hasBase b) reqs resps
           = (List.range' n0 (committedBy (hasBase b) reqs resps).length).map (variant b)) := by
  intro reqs
  induction reqs with
  | nil =>
    intro db fuel n0 _ _
    exact ⟨[], db, rfl, fun _ _ => rfl⟩
  | cons req reqs ih =>
    intro db fuel n0 hfuel htaken
    simp only [List.length_cons] at hfuel
    obtain ⟨resp, db1, hrun, hcase⟩ := createBlog_spec fuel db req (by omega)
    rcases hcase with ⟨hnone, hdb⟩ | ⟨k, doc, hresp, hslug, hkfree, hktaken, hdb⟩
    · subst hdb
      obtain ⟨resps, db2, hrest, hconcl⟩ := ih db1 fuel n0 (by omega) htaken
      refine ⟨resp :: resps, db2, createAll_cons _ _ _ _ _ _ _ _ hrun hrest, ?_⟩
      have e1 : committedBy (hasBase b) (req :: reqs) (resp :: resps)
          = committedBy (hasBase b) reqs resps := by
        rw [committedBy_cons, hnone]; simp
      have e2 : committedBy (fun r => !hasBase b r) (req :: reqs) (resp :: resps)
          = committedBy (fun r => !hasBase b r) reqs resps := by
        rw [committedBy_cons, hnone]; simp
      rw [e1, e2]
      exact hconcl
    · have hlen1 : db1.blogs.length = db.blogs.length + 1 := by rw [hdb]; simp
      subst hresp
      by_cases hsel : hasBase b req = true
      · have hbeq : initialSlug req.title = b := by simpa [hasBase] using hsel
        rw [hbeq] at hslug hkfree hktaken
        have hge : n0 ≤ k := by
          by_contra hlt
          exact hkfree (htaken k (by omega))
        have e1 : ∀ resps, committedBy (hasBase b) (req :: reqs) (Response.created doc :: resps)
            = doc.slug :: committedBy (hasBase b) reqs resps := by
          intro resps
          rw [committedBy_cons, if_pos hsel]; rfl
        have e2 : ∀ resps,
            committedBy (fun r => !hasBase b r) (req :: reqs) (Response.created doc :: resps)
              = committedBy (fun r => !hasBase b r) reqs resps := by
          intro resps
          rw [committedBy_cons]; simp [hsel]
        by_cases hk : k = n0
        · subst hk
          have htaken1 : ∀ j, j < k + 1 → variant b j ∈ slugs db1.blogs := by
            intro j hj
            rw [hdb]
            by_cases hjn : j < k
            · exact (mem_slugs_append _ _ _).2 (Or.inl (htaken j hjn))
            · have : j = k := by omega
              exact (mem_slugs_append _ _ _).2 (Or.inr (by rw [this, hslug]))
          obtain ⟨resps, db2, hrest, hconcl⟩ := ih db1 fuel (k + 1) (by omega) htaken1
          refine ⟨Response.created doc :: resps, db2,
            createAll_cons _ _ _ _ _ _ _ _ hrun hrest, ?_⟩
          rw [e1, e2]
          intro hfree hforeign
          simp only [List.length_cons] at hfree hforeign ⊢
          have h := hconcl
            (by
              intro k' h1 h2 hmem
              rw [hdb] at hmem
              rcases (mem_slugs_append _ _ _).1 hmem with hmem | hmem
              · exact hfree k' (by omega) (by omega) hmem
              · rw [hslug] at hmem
                have := variant_injective _ _ _ hmem
                omega)
            (by
              intro k' h2
              exact hforeign k' (by omega))
          rw [List.range'_succ, List.map_cons, ← h, hslug]
        · obtain ⟨resps, db2, hrest, _⟩ := ih db1 fuel n0 (by omega)
            (by
              intro j hj
              rw [hdb]
              exact (mem_slugs_append _ _ _).2 (Or.inl (htaken j hj)))
          refine ⟨Response.created doc :: resps, db2,
            createAll_cons _ _ _ _ _ _ _ _ hrun hrest, ?_⟩
          rw [e1]
          intro hfree _
          simp only [List.length_cons] at hfree
          exact absurd (hktaken n0 (by omega)) (hfree n0 (le_refl _) (by omega))
      · have hsel' : hasBase b req = false := by simpa using hsel
        have e1 : ∀ resps, committedBy (hasBase b) (req :: reqs) (Response.created doc :: resps)
            = committedBy (hasBase b) reqs resps := by
          intro resps
          rw [committedBy_cons]; simp [hsel']
        have e2 : ∀ resps,
            committedBy (fun r => !hasBase b r) (req :: reqs) (Response.created doc :: resps)
              = doc.slug :: committedBy (fun r => !hasBase b r) reqs resps := by
          intro resps
          rw [committedBy_cons]; simp [hsel', committedSlug]
        obtain ⟨resps, db2, hrest, hconcl⟩ := ih db1 fuel n0 (by omega)
          (by
            intro j hj
            rw [hdb]
            exact (mem_slugs_append _ _ _).2 (Or.inl (htaken j hj)))
        refine ⟨Response.created doc :: resps, db2,
          createAll_cons _ _ _ _ _ _ _ _ hrun hrest, ?_⟩
        rw [e1, e2]
        intro hfree hforeign
        apply hconcl
        · intro k' h1 h2 hmem
          rw [hdb] at hmem
          rcases (mem_slugs_append _ _ _).1 hmem with hmem | hmem
          · exact hfree k' h1 h2 hmem
          · exact hforeign k' h2 (by rw [hmem]; exact List.mem_cons_self _ _)
        · intro k' h2 hmem
          exact hforeign k' h2 (List.mem_cons_of_mem _ hmem)

/-! ## The claims about the allocator -/

/-- C1: for every store and every base slug `b`, the probe loop (given one query per
stored post and one more) returns a slug that is not in the store; it returns
`b` when `b` is not in the store, and otherwise `b-k` for the least `k ≥ 1` such
that `b-k` is not in the store. -/
theorem allocate_result (fuel : Nat) (blogs : List Blog) (b : String)
    (hfuel : blogs.length < fuel) :
    ∃ r, allocate fuel blogs b = some r ∧ r ∉ slugs blogs ∧
      (b ∉ slugs blogs → r = b) ∧
      (b ∈ slugs blogs → ∃ k, 1 ≤ k ∧ r = b ++ "-" ++ toString k ∧
        ∀ j, 1 ≤ j → j < k → b ++ "-" ++ toString j ∈ slugs blogs) := by
  obtain ⟨k, _, halloc, hfree, htaken⟩ := allocate_first_free fuel blogs b hfuel
  refine ⟨variant b k, halloc, hfree, ?_, ?_⟩
  · intro hb
    cases k with
    | zero => rfl
    | succ k => exact absurd (htaken 0 (by omega)) hb
  · intro hb
    cases k with
    | zero => exact absurd hb hfree
    | succ k =>
      refine ⟨k + 1, by omega, rfl, fun j h1 h2 => ?_⟩
      obtain ⟨i, rfl⟩ : ∃ i, j = i + 1 := ⟨j - 1, by omega⟩
      exact htaken (i + 1) h2

theorem allocate_result_witness :
    [samplePost "post", samplePost "post-1"].length < 3 ∧
    (∃ r, allocate 3 [samplePost "post", samplePost "post-1"] "post" = some r ∧
      r ∉ slugs [samplePost "post", samplePost "post-1"] ∧
      ("post" ∉ slugs [samplePost "post", samplePost "post-1"] → r = "post") ∧
      ("post" ∈ slugs [samplePost "post", samplePost "post-1"] →
        ∃ k, 1 ≤ k ∧ r = "post" ++ "-" ++ toString k ∧
          ∀ j, 1 ≤ j → j < k →
            "post" ++ "-" ++ toString j ∈ slugs [samplePost "post", samplePost "post-1"])) ∧
    allocate 3 [samplePost "post", samplePost "post-1"] "post" = some "post-2" ∧
    allocate 1 [] "post" = some "post" :=
  ⟨by decide, allocate_result 3 [samplePost "post", samplePost "post-1"] "post" (by decide),
    by decide, by decide⟩

/-- C7: for every store and every base slug (the empty one included) there is a
number of queries, at most the number of stored posts plus one, after which
the probe loop has stopped at a candidate that is not in the store; more fuel
does not change the result. -/
theorem allocate_terminates (blogs : List Blog) (b : String) :
    ∃ queries r, queries ≤ blogs.length + 1 ∧ r ∉ slugs blogs ∧
      ∀ fuel, queries ≤ fuel → allocate fuel blogs b = some r := by
  obtain ⟨k, hk, hfree, htaken⟩ := first_free_variant blogs b
  refine ⟨k + 1, variant b k, by omega, hfree, fun fuel hfuel => ?_⟩
  have := probeLoop_walk blogs b k 0 fuel (by omega) (by simpa using hfree)
    (fun j _ h2 => htaken j (by omega))
  simpa [allocate, variant] using this

/-- C9, as stated, fails: with `post` and `post-1` stored the probe loop returns
`post-2`, although the variant `post-10` is free and comes first in
lexicographic order. -/
theorem allocate_not_lexicographic :
    allocate 3 [samplePost "post", samplePost "post-1"] "post" = some "post-2" ∧
    variant "post" 10 = "post-10" ∧
    "post-10" ∉ slugs [samplePost "post", samplePost "post-1"] ∧
    "post-10" < "post-2" := by
  refine ⟨by decide, by decide, by decide, String.lt_iff_toList_lt.2 (by decide)⟩

/-- C9, amended: the probe loop returns the first free variant in probe order, that
is the variant `b`, `b-1`, `b-2`, ... of least index (the base counting as index
0, the numeric suffix otherwise) that is not in the store. -/
theorem allocate_least_index (fuel : Nat) (blogs : List Blog) (b : String)
    (hfuel : blogs.length < fuel) :
    ∃ k, allocate fuel blogs b = some (variant b k) ∧ variant b k ∉ slugs blogs ∧
      ∀ j, variant b j ∉ slugs blogs → k ≤ j := by
  obtain ⟨k, _, halloc, hfree, htaken⟩ := allocate_first_free fuel blogs b hfuel
  refine ⟨k, halloc, hfree, fun j hj => ?_⟩
  by_contra hlt
  exact hj (htaken j (by omega))

theorem allocate_least_index_witness :
    [samplePost "post", samplePost "post-1"].length < 3 ∧
    ∃ k, allocate 3 [samplePost "post", samplePost "post-1"] "post" = some (variant "post" k) ∧
      variant "post" k ∉ slugs [samplePost "post", samplePost "post-1"] ∧
      ∀ j, variant "post" j ∉ slugs [samplePost "post", samplePost "post-1"] → k ≤ j :=
  ⟨by decide, allocate_least_index 3 [samplePost "post", samplePost "post-1"] "post" (by decide)⟩

/-! ## The claims about sequential creation -/

/-- C2: from a store whose slugs are pairwise distinct, handling any sequence of
creation requests one after another (with enough fuel for the probe loops)
runs to completion, leaves the stored posts unchanged, appends exactly the
posts it created, and ends in a store whose slugs are pairwise distinct; with
one request this is the invariant of one creation, and from the empty store it
gives that every reachable store has pairwise distinct slugs. -/
theorem sequential_creation_slugs_unique (fuel : Nat) (db : Db) (reqs : List Request)
    (hfuel : db.blogs.length + reqs.length ≤ fuel) (hnd : (slugs db.blogs).Nodup) :
    ∃ resps db', createAll fuel db reqs = some (resps, db') ∧
      (slugs db'.blogs).Nodup ∧ db'.blogs = db.blogs ++ createdDocs resps := by
  obtain ⟨resps, db', hrun, _, hnd', hblogs, _⟩ := createAll_nodup_aux reqs db fuel hfuel hnd
  exact ⟨resps, db', hrun, hnd', hblogs⟩

theorem sequential_creation_slugs_unique_witness :
    sampleDb.blogs.length + [sampleRequest "Post 1", sampleRequest "Post",
      sampleRequest "Post", sampleRequest "!!!"].length ≤ 4 ∧
    (slugs sampleDb.blogs).Nodup ∧
    ∃ resps db', createAll 4 sampleDb [sampleRequest "Post 1", sampleRequest "Post",
        sampleRequest "Post", sampleRequest "!!!"] = some (resps, db') ∧
      (slugs db'.blogs).Nodup ∧ db'.blogs = sampleDb.blogs ++ createdDocs resps :=
  ⟨by decide, by decide,
    sequential_creation_slugs_unique 4 sampleDb [sampleRequest "Post 1", sampleRequest "Post",
      sampleRequest "Post", sampleRequest "!!!"] (by decide) (by decide)⟩

/-- C6, as stated, fails for a title whose derived base is empty: the title `!!!`
derives the empty slug, the empty store does not contain it, the request passes
the guards of the handler, and yet the creation is answered with a server error
and no post is stored (the empty slug does not pass the `required` validator of
the schema). -/
theorem same_title_empty_base :
    initialSlug "!!!" = "" ∧
    accepted sampleDb (sampleRequest "!!!") = true ∧
    variant (initialSlug "!!!") 0 ∉ slugs sampleDb.blogs ∧
    createAll 5 sampleDb [sampleRequest "!!!"]
      = some ([Response.serverError "Internal server error"], sampleDb) := by
  refine ⟨by decide, by decide, by decide, by decide⟩

/-- C6, amended: for every title `T` whose derived base `b` is not empty, every `n`
and every store that contains none of `b`, `b-1`, ..., `b-(n-1)`, handling one
after another `n` requests titled `T` that pass the guards of the handler
creates `n` posts with the slugs `b`, `b-1`, ..., `b-(n-1)` in this order. -/
theorem same_title_sequence (fuel : Nat) (db : Db) (reqs : List Request) (T : String)
    (hbase : initialSlug T ≠ "")
    (hreqs : ∀ r ∈ reqs, r.title = T ∧ accepted db r = true)
    (hfree : ∀ k, k < reqs.length → variant (initialSlug T) k ∉ slugs db.blogs)
    (hfuel : db.blogs.length + reqs.length ≤ fuel) :
    ∃ resps db', createAll fuel db reqs = some (resps, db') ∧
      resps.map committedSlug
        = (List.range reqs.length).map (fun k => some (variant (initialSlug T) k)) := by
  obtain ⟨resps, db', hrun, hmap⟩ := createAll_same_title_aux T hbase reqs db fuel 0 hfuel hreqs
    (fun j hj => absurd hj (Nat.not_lt_zero j))
    (fun k _ hk => hfree k (by omega))
  exact ⟨resps, db', hrun, by rw [hmap, List.range_eq_range']⟩

theorem same_title_sequence_witness :
    initialSlug "My Post" ≠ "" ∧
    (∀ r ∈ [sampleRequest "My Post", sampleRequest "My Post", sampleRequest "My Post"],
      r.title = "My Post" ∧ accepted sampleDb r = true) ∧
    (∃ resps db', createAll 3 sampleDb
        [sampleRequest "My Post", sampleRequest "My Post", sampleRequest "My Post"]
          = some (resps, db') ∧
      resps.map committedSlug
        = (List.range 3).map (fun k => some (variant (initialSlug "My Post") k))) ∧
    (List.range 3).map (fun k => some (variant (initialSlug "My Post") k))
      = [some "my-post", some "my-post-1", some "my-post-2"] :=
  ⟨by decide, by decide,
    same_title_sequence 3 sampleDb
      [sampleRequest "My Post", sampleRequest "My Post", sampleRequest "My Post"] "My Post"
      (by decide) (by decide) (by intro k _; simp [sampleDb, slugs]) (by decide),
    by decide⟩

/-- C8, as stated, fails: creating `Post 1`, `Post`, `Post` in this order from the
empty store commits `post` and `post-2` for the base `post`, not `post` and
`post-1`, because `post-1` is already taken by the post of base `post-1`. -/
theorem base_slugs_have_gap :
    (createAll 3 sampleDb [sampleRequest "Post 1", sampleRequest "Post", sampleRequest "Post"]).map
        (fun out => committedBy (hasBase "post")
          [sampleRequest "Post 1", sampleRequest "Post", sampleRequest "Post"] out.1)
      = some ["post", "post-2"] ∧
    (List.range 2).map (variant "post") = ["post", "post-1"] ∧
    "post-1" ∉ ["post", "post-2"] := by
  refine ⟨by decide, by decide, by decide⟩

/-- C8, amended: for every sequence of creation requests handled one after another
from the empty store and every base slug `b`, if no request of another base
commits one of `b`, `b-1`, ..., `b-(m-1)`, where `m` is the number of posts
committed by the requests of base `b`, then these requests commit exactly
`b`, `b-1`, ..., `b-(m-1)`, in this order. -/
theorem base_slugs_without_gap (fuel : Nat) (db : Db) (reqs : List Request) (b : String)
    (hempty : db.blogs = []) (hfuel : reqs.length ≤ fuel) :
    ∃ resps db', createAll fuel db reqs = some (resps, db') ∧
      ((∀ k, k < (committedBy (hasBase b) reqs resps).length →
          variant b k ∉ committedBy (fun r => !hasBase b r) reqs resps) →
        committedBy (hasBase b) reqs resps
          = (List.range (committedBy (hasBase b) reqs resps).length).map (variant b)) := by
  obtain ⟨resps, db', hrun, hconcl⟩ := createAll_base_aux b reqs db fuel 0
    (by rw [hempty]; simpa using hfuel) (fun j hj => absurd hj (Nat.not_lt_zero j))
  refine ⟨resps, db', hrun, fun hforeign => ?_⟩
  rw [List.range_eq_range']
  apply hconcl
  · intro k _ _
    rw [hempty]
    simp [slugs]
  · intro k hk
    exact hforeign k (by omega)

theorem base_slugs_without_gap_witness :
    sampleDb.blogs = [] ∧
    (∃ resps db', createAll 3 sampleDb
        [sampleRequest "Post", sampleRequest "Other", sampleRequest "Post"] = some (resps, db') ∧
      ((∀ k, k < (committedBy (hasBase "post")
            [sampleRequest "Post", sampleRequest "Other", sampleRequest "Post"] resps).length →
          variant "post" k ∉ committedBy (fun r => !hasBase "post" r)
            [sampleRequest "Post", sampleRequest "Other", sampleRequest "Post"] resps) →
        committedBy (hasBase "post")
            [sampleRequest "Post", sampleRequest "Other", sampleRequest "Post"] resps
          = (List.range (committedBy (hasBase "post")
              [sampleRequest "Post", sampleRequest "Other", sampleRequest "Post"]
                resps).length).map (variant "post"))) ∧
    (createAll 3 sampleDb [sampleRequest "Post", sampleRequest "Other", sampleRequest "Post"]).map
        (fun out => (committedBy (hasBase "post")
            [sampleRequest "Post", sampleRequest "Other", sampleRequest "Post"] out.1,
          committedBy (fun r => !hasBase "post" r)
            [sampleRequest "Post", sampleRequest "Other", sampleRequest "Post"] out.1))
      = some (["post", "post-1"], ["other"]) :=
  ⟨rfl, base_slugs_without_gap 3 sampleDb
      [sampleRequest "Post", sampleRequest "Other", sampleRequest "Post"] "post" rfl (by decide),
    by decide⟩

/-! ## Interleaved creations with one base -/

theorem TaskOk_mono (x : String) (m m' : Nat) (h : m ≤ m') (t : Task) (ht : TaskOk x m t) :
    TaskOk x m' t := by
  cases t with
  | start req => exact ht
  | uploading req file => exact ht
  | probing req url slug finalSlug suffix =>
    obtain ⟨h1, j, h2, h3, h4⟩ := ht
    exact ⟨h1, j, h2, h3, by omega⟩
  | saving doc =>
    obtain ⟨j, h2, h4⟩ := ht
    exact ⟨j, h2, by omega⟩
  | done resp => trivial

theorem variant_mem_range (x : String) (m j : Nat) :
    variant x j ∈ (List.range m).map (variant x) ↔ j < m := by
  constructor
  · intro h
    obtain ⟨i, hi, heq⟩ := List.mem_map.1 h
    have := variant_injective x i j heq
    have := List.mem_range.1 hi
    omega
  · intro h
    exact List.mem_map.2 ⟨j, List.mem_range.2 h, rfl⟩

theorem get?_split (l : List Task) : ∀ (i : Nat) (t : Task), l.get? i = some t →
    ∃ a b, l = a ++ t :: b ∧ ∀ t', l.set i t' = a ++ t' :: b := by
  induction l with
  | nil => intro i t h; simp at h
  | cons c cs ih =>
    intro i t h
    cases i with
    | zero =>
      have : c = t := by simpa using h
      subst this
      exact ⟨[], cs, rfl, fun t' => rfl⟩
    | succ i =>
      obtain ⟨a, b, hl, hset⟩ := ih i t (by simpa using h)
      exact ⟨c :: a, b, by rw [hl]; rfl, fun t' => by simp [List.set, hset t']⟩

/-- One step of a request in flight: either the database is untouched and the
request commits nothing new, or the request saves the next variant. -/
theorem stepTask_spec (x : String) (db : Db) (t : Task)
    (hgap : slugs db.blogs = (List.range db.blogs.length).map (variant x))
    (hok : TaskOk x db.blogs.length t) :
    ((stepTask db t).2 = db ∧ TaskOk x db.blogs.length (stepTask db t).1 ∧
        taskSlug (stepTask db t).1 = taskSlug t) ∨
      (∃ doc, taskSlug t = none ∧ (stepTask db t).1 = Task.done (Response.created doc) ∧
        (stepTask db t).2 = { db with blogs := db.blogs ++ [doc] } ∧
        doc.slug = variant x db.blogs.length) := by
  cases t with
  | start req =>
    left
    simp only [stepTask]
    split_ifs
    · exact ⟨rfl, trivial, rfl⟩
    · cases req.file with
      | none => exact ⟨rfl, trivial, rfl⟩
      | some file =>
        cases findOneCategory db.categories req.category with
        | none => exact ⟨rfl, trivial, rfl⟩
        | some cat => exact ⟨rfl, hok, rfl⟩
  | uploading req file =>
    left
    simp only [stepTask]
    cases uploadImage file with
    | none => exact ⟨rfl, trivial, rfl⟩
    | some url => exact ⟨rfl, ⟨hok, 0, hok, rfl, Nat.zero_le _⟩, rfl⟩
  | probing req url slug finalSlug suffix =>
    left
    obtain ⟨h1, j, h2, h3, h4⟩ := hok
    subst h1 h2 h3
    simp only [stepTask]
    cases hfind : findOneBySlug db.blogs (variant slug j) with
    | none => exact ⟨rfl, ⟨j, rfl, h4⟩, rfl⟩
    | some p =>
      refine ⟨rfl, ⟨rfl, j + 1, rfl, rfl, ?_⟩, rfl⟩
      have hmem : variant slug j ∈ slugs db.blogs := by
        apply (findOneBySlug_isSome _ _).1
        rw [hfind]; rfl
      rw [hgap] at hmem
      have := (variant_mem_range slug _ j).1 hmem
      omega
  | saving doc =>
    obtain ⟨j, h2, h4⟩ := hok
    simp only [stepTask]
    cases hsave : save db doc with
    | error e => exact Or.inl ⟨rfl, trivial, rfl⟩
    | ok out =>
      obtain ⟨d, db'⟩ := out
      obtain ⟨hd, hfree, hdb⟩ := save_eq_ok _ _ _ _ hsave
      right
      refine ⟨doc, rfl, by rw [hd], hdb, ?_⟩
      rw [h2]
      have hj : ¬ j < db.blogs.length := by
        intro hlt
        apply hfree
        rw [h2, hgap]
        exact (variant_mem_range x _ j).2 hlt
      have : j = db.blogs.length := by omega
      rw [this]
  | done resp => exact Or.inl ⟨rfl, trivial, rfl⟩

theorem Inv_stepAt (x : String) (n : Nat) (sys : System) (i : Nat) (h : Inv x n sys) :
    Inv x n (stepAt sys i) := by
  unfold stepAt
  cases hget : sys.tasks.get? i with
  | none => exact h
  | some t =>
    obtain ⟨a, b, hl, hset⟩ := get?_split sys.tasks i t hget
    have hmem : t ∈ sys.tasks := by rw [hl]; simp
    rcases stepTask_spec x sys.db t h.gapFree (h.tasksOk t hmem) with
      ⟨hdb, hok, hslug⟩ | ⟨doc, hnone, htask, hdb, hslug⟩
    · refine ⟨?_, ?_, ?_, ?_⟩
      · simp only [hdb]; exact h.gapFree
      · simp only [hdb, hset]
        intro t' ht'
        rcases List.mem_append.1 ht' with ht' | ht'
        · exact h.tasksOk t' (by rw [hl]; exact List.mem_append_left _ ht')
        · rcases List.mem_cons.1 ht' with ht' | ht'
          · rw [ht']; exact hok
          · exact h.tasksOk t' (by rw [hl]; simp [ht'])
      · simp only [hdb, hset]
        have := h.committed
        rw [hl] at this
        simpa [List.filterMap_append, List.filterMap_cons, hslug] using this
      · simp only [hset]
        rw [← h.count, hl]
        simp
    · refine ⟨?_, ?_, ?_, ?_⟩
      · simp only [hdb]
        simp only [slugs, List.map_append, List.map_cons, List.map_nil, List.length_append,
          List.length_singleton, List.range_succ]
        have := h.gapFree
        simp only [slugs] at this
        rw [this, hslug]
      · simp only [hdb, hset, htask]
        intro t' ht'
        have hmono : ∀ u, TaskOk x sys.db.blogs.length u →
            TaskOk x (sys.db.blogs ++ [doc]).length u :=
          fun u hu => TaskOk_mono x _ _ (by simp) u hu
        rcases List.mem_append.1 ht' with ht' | ht'
        · exact hmono _ (h.tasksOk t' (by rw [hl]; exact List.mem_append_left _ ht'))
        · rcases List.mem_cons.1 ht' with ht' | ht'
          · rw [ht']; trivial
          · exact hmono _ (h.tasksOk t' (by rw [hl]; simp [ht']))
      · simp only [hdb, hset, htask]
        have := h.committed
        rw [hl] at this
        simp only [List.filterMap_append, List.filterMap_cons, hnone] at this
        simp only [slugs, List.map_append, List.map_cons, List.map_nil, List.filterMap_append,
          List.filterMap_cons, taskSlug, committedSlug]
        simp only [slugs] at this
        refine List.Perm.trans ?_ List.perm_middle.symm
        refine List.Perm.trans (List.perm_append_singleton _ _) ?_
        exact List.Perm.cons _ this
      · simp only [hset]
        rw [← h.count, hl]
        simp

theorem Inv_launch (x : String) (db : Db) (reqs : List Request) (hempty : db.blogs = [])
    (hbase : ∀ r ∈ reqs, initialSlug r.title = x) : Inv x reqs.length (launch db reqs) := by
  refine ⟨?_, ?_, ?_, ?_⟩
  · simp [launch, hempty, slugs]
  · intro t ht
    simp only [launch, List.mem_map] at ht
    obtain ⟨r, hr, rfl⟩ := ht
    exact hbase r hr
  · simp only [launch, hempty, slugs, List.map_nil]
    have : (reqs.map Task.start).filterMap taskSlug = [] := by
      rw [List.filterMap_eq_nil_iff]
      intro t ht
      obtain ⟨r, _, rfl⟩ := List.mem_map.1 ht
      rfl
    rw [this]
  · simp [launch]

theorem Inv_runSchedule (x : String) (n : Nat) (schedule : List Nat) :
    ∀ sys, Inv x n sys → Inv x n (runSchedule sys schedule) := by
  induction schedule with
  | nil => intro sys h; exact h
  | cons i rest ih =>
    intro sys h
    exact ih (stepAt sys i) (Inv_stepAt x n sys i h)

theorem responses_committed (sys : System) :
    (responses sys).filterMap committedSlug = sys.tasks.filterMap taskSlug := by
  unfold responses
  rw [List.filterMap_filterMap]
  congr 1
  funext t
  cases t <;> rfl

/-- C10, as stated, fails: two requests titled `x` are launched together on a store
with no posts and the event loop resumes them in turn.  Both find `x` free;
the first save stores `x`, the second is rejected by the unique index and
answered with a server error.  Every request is answered, and one slug is
committed instead of the two slugs `x` and `x-1`. -/
theorem concurrent_creations_lose_one :
    initialSlug "x" = "x" ∧
    allDone (runSchedule (launch sampleDb [sampleRequest "x", sampleRequest "x"])
      [0, 1, 0, 1, 0, 1, 0, 1]) = true ∧
    slugs (runSchedule (launch sampleDb [sampleRequest "x", sampleRequest "x"])
      [0, 1, 0, 1, 0, 1, 0, 1]).db.blogs = ["x"] ∧
    (responses (runSchedule (launch sampleDb [sampleRequest "x", sampleRequest "x"])
      [0, 1, 0, 1, 0, 1, 0, 1])).map committedSlug = [some "x", none] ∧
    (List.range 2).map (variant "x") = ["x", "x-1"] := by
  refine ⟨by decide, by decide, by decide, by decide, by decide⟩

/-- C10, amended: when `N` requests whose titles derive the same base `x` are launched
together on a store with no posts, then under every interleaving of their
steps, and at every moment, the stored slugs are `x`, `x-1`, ..., `x-(M-1)` in
this order for some `M ≤ N`: they are pairwise distinct, have no gap, and are
exactly the slugs of the posts answered as created.  (`M` can be smaller than
`N`: a request that loses the race for a slug is answered with an error.) -/
theorem concurrent_same_base (db : Db) (reqs : List Request) (x : String)
    (schedule : List Nat) (hempty : db.blogs = [])
    (hbase : ∀ r ∈ reqs, initialSlug r.title = x) :
    slugs (runSchedule (launch db reqs) schedule).db.blogs
        = (List.range (runSchedule (launch db reqs) schedule).db.blogs.length).map (variant x) ∧
      (slugs (runSchedule (launch db reqs) schedule).db.blogs).Nodup ∧
      (slugs (runSchedule (launch db reqs) schedule).db.blogs).Perm
        ((responses (runSchedule (launch db reqs) schedule)).filterMap committedSlug) ∧
      (runSchedule (launch db reqs) schedule).db.blogs.length ≤ reqs.length := by
  have hinv := Inv_runSchedule x reqs.length schedule _ (Inv_launch x db reqs hempty hbase)
  refine ⟨hinv.gapFree, ?_, ?_, ?_⟩
  · rw [hinv.gapFree]
    exact (List.nodup_range _).map (fun j k h => variant_injective x j k h)
  · rw [responses_committed]
    exact hinv.committed
  · have h1 := hinv.committed.length_eq
    have h2 := List.length_filterMap_le taskSlug
      (runSchedule (launch db reqs) schedule).tasks
    have h3 := hinv.count
    simp only [slugs, List.length_map] at h1
    omega

theorem concurrent_same_base_witness :
    sampleDb.blogs = [] ∧
    (∀ r ∈ [sampleRequest "x", sampleRequest "x", sampleRequest "x"], initialSlug r.title = "x") ∧
    (slugs (runSchedule (launch sampleDb
          [sampleRequest "x", sampleRequest "x", sampleRequest "x"])
          [0, 0, 0, 0, 1, 1, 2, 2, 1, 2, 1, 2, 1, 2]).db.blogs
        = (List.range (runSchedule (launch sampleDb
            [sampleRequest "x", sampleRequest "x", sampleRequest "x"])
            [0, 0, 0, 0, 1, 1, 2, 2, 1, 2, 1, 2, 1, 2]).db.blogs.length).map (variant "x") ∧
      (slugs (runSchedule (launch sampleDb
          [sampleRequest "x", sampleRequest "x", sampleRequest "x"])
          [0, 0, 0, 0, 1, 1, 2, 2, 1, 2, 1, 2, 1, 2]).db.blogs).Nodup ∧
      (slugs (runSchedule (launch sampleDb
          [sampleRequest "x", sampleRequest "x", sampleRequest "x"])
          [0, 0, 0, 0, 1, 1, 2, 2, 1, 2, 1, 2, 1, 2]).db.blogs).Perm
        ((responses (runSchedule (launch sampleDb
          [sampleRequest "x", sampleRequest "x", sampleRequest "x"])
          [0, 0, 0, 0, 1, 1, 2, 2, 1, 2, 1, 2, 1, 2])).filterMap committedSlug) ∧
      (runSchedule (launch sampleDb
          [sampleRequest "x", sampleRequest "x", sampleRequest "x"])
          [0, 0, 0, 0, 1, 1, 2, 2, 1, 2, 1, 2, 1, 2]).db.blogs.length
        ≤ [sampleRequest "x", sampleRequest "x", sampleRequest "x"].length) ∧
    slugs (runSchedule (launch sampleDb
        [sampleRequest "x", sampleRequest "x", sampleRequest "x"])
        [0, 0, 0, 0, 1, 1, 2, 2, 1, 2, 1, 2, 1, 2]).db.blogs = ["x", "x-1"] :=
  ⟨rfl, by decide,
    concurrent_same_base sampleDb [sampleRequest "x", sampleRequest "x", sampleRequest "x"] "x"
      [0, 0, 0, 0, 1, 1, 2, 2, 1, 2, 1, 2, 1, 2] rfl (by decide),
    by decide⟩

/-! ## A request run alone is the handler run to completion -/

theorem stepAt_single (db : Db) (t : Task) :
    stepAt { db := db, tasks := [t] } 0
      = { db := (stepTask db t).2, tasks := [(stepTask db t).1] } :=
  rfl

theorem runSchedule_succ (sys : System) (n : Nat) :
    runSchedule sys (List.replicate (n + 1) 0) = runSchedule (stepAt sys 0) (List.replicate n 0) :=
  rfl

theorem runSchedule_done (db : Db) (resp : Response) (n : Nat) :
    runSchedule { db := db, tasks := [Task.done resp] } (List.replicate n 0)
      = { db := db, tasks := [Task.done resp] } := by
  induction n with
  | zero => rfl
  | succ n ih => rw [runSchedule_succ, stepAt_single]; exact ih

/-- A request alone in the probe loop walks through the taken variants and
reaches `await newBlog.save()` with the first free one. -/
theorem runSchedule_probing (db : Db) (req : Request) (url b : String) (d : Nat) :
    ∀ (k n : Nat), variant b (k + d) ∉ slugs db.blogs →
      (∀ j, k ≤ j → j < k + d → variant b j ∈ slugs db.blogs) →
      runSchedule { db := db, tasks := [Task.probing req url b (variant b k) (k + 1)] }
          (List.replicate (n + (d + 1)) 0)
        = runSchedule { db := db, tasks := [Task.saving (newBlog req (variant b (k + d)) url)] }
            (List.replicate n 0) := by
  induction d with
  | zero =>
    intro k n hfree _
    have hnone := (findOneBySlug_eq_none db.blogs (variant b k)).2 (by simpa using hfree)
    rw [runSchedule_succ, stepAt_single]
    simp [stepTask, hnone]
  | succ d ih =>
    intro k n hfree htaken
    have hk : variant b k ∈ slugs db.blogs := htaken k (le_refl _) (by omega)
    obtain ⟨p, hp⟩ := Option.isSome_iff_exists.1 ((findOneBySlug_isSome db.blogs _).2 hk)
    rw [show n + (d + 1 + 1) = (n + (d + 1)) + 1 by omega, runSchedule_succ, stepAt_single]
    simp only [stepTask, hp]
    rw [← variant_succ, ih (k + 1) n (by rwa [show k + 1 + d = k + (d + 1) by omega])
      (fun j h1 h2 => htaken j (by omega) (by omega)),
      show k + 1 + d = k + (d + 1) by omega]

/-- The step machine agrees with the handler: a request scheduled alone for
`fuel + 3` steps is answered as `createBlog` answers it, with the same
database afterwards. -/
theorem runSchedule_alone (fuel : Nat) (db : Db) (req : Request)
    (hfuel : db.blogs.length < fuel) :
    ∃ resp db', createBlog fuel db req = some (resp, db') ∧
      runSchedule { db := db, tasks := [Task.start req] } (List.replicate (fuel + 3) 0)
        = { db := db', tasks := [Task.done resp] } := by
  obtain ⟨k, hk, halloc, hfree, htaken⟩ :=
    allocate_first_free fuel db.blogs (initialSlug req.title) hfuel
  unfold createBlog
  rw [runSchedule_succ, stepAt_single]
  simp only [stepTask]
  split_ifs with hguard
  · exact ⟨_, _, rfl, runSchedule_done _ _ _⟩
  · cases hfile : req.file with
    | none => exact ⟨_, _, rfl, runSchedule_done _ _ _⟩
    | some file =>
      cases hcat : findOneCategory db.categories req.category with
      | none => exact ⟨_, _, rfl, runSchedule_done _ _ _⟩
      | some cat =>
        simp only []
        rw [runSchedule_succ, stepAt_single]
        simp only [stepTask]
        cases hup : uploadImage file with
        | none => exact ⟨_, _, rfl, runSchedule_done _ _ _⟩
        | some imageUrl =>
          simp only [halloc]
          obtain ⟨n, hn⟩ : ∃ n, fuel + 1 = (n + 1) + (k + 1) := ⟨fuel - k - 1, by omega⟩
          have hwalk := runSchedule_probing db req imageUrl (initialSlug req.title) k 0 (n + 1)
            (by simpa using hfree) (fun j _ h2 => htaken j (by omega))
          simp only [Nat.zero_add] at hwalk
          rw [show variant (initialSlug req.title) 0 = initialSlug req.title from rfl] at hwalk
          rw [hn, hwalk, runSchedule_succ, stepAt_single]
          simp only [stepTask]
          cases hsave : save db (newBlog req (variant (initialSlug req.title) k) imageUrl) with
          | error e => exact ⟨_, _, rfl, runSchedule_done _ _ _⟩
          | ok out =>
            obtain ⟨d, db'⟩ := out
            exact ⟨_, _, rfl, runSchedule_done _ _ _⟩

end BlogApi
